import Mathlib

/-!
Shallow embedding of nfc/tt3.py (NFC Forum Type 3 tag support): the NDEF
attribute-block codec, the NDEF message accessor (get/set) over an ideal
block transport, the reader-side block-address wire encoding, and the
tag-emulation command dispatcher.  Machine bytes are modelled as `Nat`
values; a byte string is a `List Nat`.  Fallible Python operations
(IndexError / ValueError raises) are modelled with `Option` / explicit
outcome inductives; the unbounded `while` loops of the accessor are given
explicit fuel, with fuel exhaustion marking divergence.
-/

set_option maxRecDepth 4096

abbrev Bytes := List Nat

/-- Python truthiness of a byte: `bool(b)` is true iff the byte is nonzero. -/
def pyBool (n : Nat) : Bool := n != 0

/-- Python slice `l[a:b]` (clamping, for 0 <= a <= b). -/
def pySlice (l : Bytes) (a b : Nat) : Bytes := (l.take b).drop a

/-- `def split2(x): return [x/0x100, x%0x100]` (tt3.py line 121). -/
def split2 (x : Nat) : Bytes := [x / 256, x % 256]

/-- `def split3(x): return [x/0x10000, x/0x100%0x100, x%0x100]` (tt3.py line 122). -/
def split3 (x : Nat) : Bytes := [x / 65536, x / 256 % 256, x % 256]

/-- The attribute-block checksum test used throughout tt3.py:
`sum(attr[0:14]) == attr[14] << 8 | attr[15]`. -/
def checksumOK (a : Bytes) : Bool :=
  (a.take 14).sum == (a.getD 14 0) <<< 8 ||| a.getD 15 0

/-- Python `s.split('.')` on a character sequence. -/
def splitOnDot : List Char → List (List Char)
  | [] => [[]]
  | c :: rest =>
    if c = '.' then [] :: splitOnDot rest
    else
      match splitOnDot rest with
      | [] => [[c]]
      | g :: gs => (c :: g) :: gs

def charDigit (c : Char) : Option Nat :=
  if '0' ≤ c ∧ c ≤ '9' then some (c.toNat - 48) else none

def parseDecimalAux : List Char → Nat → Option Nat
  | [], acc => some acc
  | c :: rest, acc =>
    match charDigit c with
    | none => none
    | some d => parseDecimalAux rest (acc * 10 + d)

/-- Python `int(s)` on the version components: accepts exactly nonempty
all-digit strings, `none` modelling the ValueError on anything else.  (The
builtin also accepts signed and whitespace-padded numerals; no version
string handled by the theorems below takes those forms.) -/
def parseDecimal : List Char → Option Nat
  | [] => none
  | cs => parseDecimalAux cs 0

/-- `NdefAttributeData` (tt3.py lines 40-50): the decoded 16-byte NDEF
attribute block.  `version` is the `"major.minor"` string the Python
constructor stores, modelled as its character sequence. -/
structure NdefAttributeData where
  version : List Char
  nbr : Nat
  nbw : Nat
  capacity : Nat
  writing : Bool
  writeable : Bool
  length : Nat
  valid : Bool
deriving Repr, DecidableEq

/-- `NdefAttributeData.__init__` (tt3.py lines 41-50), decoding a 16-byte
attribute block.  Out-of-range indexing defaults to 0 here; every use in this
development applies it to 16-byte blocks, where it agrees with Python. -/
def NdefAttributeData.parse (attr : Bytes) : NdefAttributeData where
  version := Nat.toDigits 10 (attr.getD 0 0 >>> 4) ++ '.' :: Nat.toDigits 10 (attr.getD 0 0 &&& 15)
  nbr := attr.getD 1 0
  nbw := attr.getD 2 0
  capacity := (attr.getD 3 0 * 256 + attr.getD 4 0) * 16
  writing := pyBool (attr.getD 9 0)
  writeable := pyBool (attr.getD 10 0)
  length := attr.getD 11 0 <<< 16 ||| attr.getD 12 0 <<< 8 ||| attr.getD 13 0
  valid := (attr.take 14).sum == (attr.getD 14 0) <<< 8 ||| attr.getD 15 0

/-- `NdefAttributeData.__str__` (tt3.py lines 52-69), serializing the block.
Returns `none` where Python raises: the eager `map(int, ...)` of line 54
raises ValueError on any non-numeral dot-separated component of the version
string (also ones past the second, hence the `rest.all` guard), fewer than
two components raise IndexError at `vers[1]`, and `nbr`/`nbw` out of byte
range raise ValueError at the bytearray item assignment.  All other stored
bytes are masked or small by construction, as in the source. -/
def NdefAttributeData.serialize (d : NdefAttributeData) : Option Bytes :=
  match (splitOnDot d.version).map parseDecimal with
  | some v0 :: some v1 :: rest =>
    if rest.all Option.isSome && (d.nbr < 256 && d.nbw < 256) then
      let maxb := ((d.capacity + 15) / 16) &&& 0xffff
      let front : Bytes :=
        [(v0 &&& 15) <<< 4 ||| (v1 &&& 15), d.nbr, d.nbw, maxb >>> 8, maxb &&& 0xff,
         0, 0, 0, 0,
         if d.writing then 15 else 0, if d.writeable then 1 else 0,
         d.length >>> 16 &&& 0xff, d.length >>> 8 &&& 0xff, d.length &&& 0xff]
      let checksum := front.sum
      some (front ++ [checksum >>> 8, checksum &&& 0xff])
    else none
  | _ => none

/-- Reader-side wire encoding of one block-list element
(tt3.py lines 198-200 in `Type3Tag.read`, identically lines 231-233 in
`Type3Tag.write`): 2-byte form `80 nn` for block numbers below 256, else
3-byte form `00 lo hi`. -/
def encodeBlockAddr (block : Nat) : Bytes :=
  if block < 256 then [0x80, block] else [0x00, block % 256, block / 256]

/-- Length of the assembled command string before the length prefix
(tt3.py lines 195-201 and 229-238): command code (1 byte) + idm (the
8-byte Type 3 manufacture ID, `target["IDm"]`) + number-of-services (1) +
service code (2) + block count (1) + the encoded block list, plus the data
for a write. -/
def frameLen (blocks : List Nat) (dataLen : Nat) : Nat :=
  13 + ((blocks.map encodeBlockAddr).flatten).length + dataLen

/-- All `chr` calls of frame assembly succeed: `chr(len(blocks))` needs a
block count below 256 (line 197/231), `chr(block/256)` a block number below
65536 (line 200/233), and the length prefix `chr(len(cmd)+1)` a frame of at
most 254 bytes (line 203/237).  Any violation raises
`ValueError: chr() arg not in range(256)` before anything is sent. -/
def chrOK (blocks : List Nat) (dataLen : Nat) : Bool :=
  blocks.length < 256 && blocks.all (fun b => b < 65536) &&
    frameLen blocks dataLen + 1 < 256

/-- A transport event: one `Type3Tag.read` or `Type3Tag.write` call (each such
call performs exactly one send and one receive on the wire). -/
inductive Ev where
  | read (blocks : List Nat)
  | write (data : Bytes) (blocks : List Nat)
deriving Repr, DecidableEq

/-- Tag-side state: the block memory (16 bytes per block) together with the
trace of transport calls made so far. -/
structure TagSt where
  mem : Nat → Bytes
  trace : List Ev

def updateMem (m : Nat → Bytes) (b : Nat) (v : Bytes) : Nat → Bytes :=
  fun x => if x = b then v else m x

/-- Sequentially store 16-byte chunks of `data` into the listed blocks
(the tag-memory effect of one WriteWithoutEncryption command). -/
def storeBlocks (m : Nat → Bytes) : List Nat → Bytes → (Nat → Bytes)
  | [], _ => m
  | b :: bs, d => storeBlocks (updateMem m b (d.take 16)) bs (d.drop 16)

/-- `Type3Tag.read` (tt3.py lines 188-214) over an ideal transport: returns
the requested blocks concatenated and records the transport call; `.error`
models the ValueError from the frame-assembly `chr` calls (notably
`chr(len(cmd)+1)` on a frame over 255 bytes, line 203), raised before
anything is sent. -/
def tagRead (s : TagSt) (blocks : List Nat) : Except String (Bytes × TagSt) :=
  if chrOK blocks 0 then
    .ok ((blocks.map s.mem).flatten, ⟨s.mem, s.trace ++ [.read blocks]⟩)
  else .error "chr() arg not in range(256)"

/-- `Type3Tag.write` (tt3.py lines 216-245) over an ideal transport: the
`len(data) != len(blocks) * 16` ValueError of lines 224-226 is raised
first, then the ValueError of the frame-assembly `chr` calls (notably
`chr(len(cmd)+1)` on a frame over 255 bytes, line 237); otherwise the
blocks are stored and the call recorded. -/
def tagWrite (s : TagSt) (data : Bytes) (blocks : List Nat) : Except String TagSt :=
  if data.length = 16 * blocks.length then
    if chrOK blocks data.length then
      .ok ⟨storeBlocks s.mem blocks data, s.trace ++ [.write data blocks]⟩
    else .error "chr() arg not in range(256)"
  else .error "invalid data length for given number of blocks"

/-- State of one `NDEF` accessor object (tt3.py class NDEF): the tag it wraps
and the `_attr` cache. -/
structure NDEFSt where
  tag : TagSt
  cachedAttr : Option Bytes

/-- The `attr` property (tt3.py lines 95-101): return the cached attribute
block, reading block 0 from the tag on a cache miss.  A checksum mismatch on
the freshly read block is only logged there (line 100), not raised.  A raise
from `Type3Tag.read` would propagate (`.error`), though the one-block frame
of the block-0 read always fits. -/
def getAttr (s : NDEFSt) : Except String (Bytes × NDEFSt) :=
  match s.cachedAttr with
  | some a => .ok (a, s)
  | none =>
    match tagRead s.tag [0] with
    | .error m => .error m
    | .ok (a, t) => .ok (a, ⟨t, some a⟩)

/-- The attribute block a fresh accessor operation will see: the cache if
present, else block 0 of tag memory. -/
def attrSeen (s : NDEFSt) : Bytes :=
  s.cachedAttr.getD (s.tag.mem 0)

/-- `NDEF.__init__` (tt3.py lines 73-78): populate the attribute cache and
raise ValueError on a checksum mismatch. -/
def ndefInit (t : TagSt) : Except String NDEFSt :=
  match getAttr ⟨t, none⟩ with
  | .error m => .error m
  | .ok (a, s) =>
    if checksumOK a then .ok s else .error "checksum error in NDEF attribute block"

/-- Result of running the setter's write loop: success, a propagating
exception (with its message and the tag state reached when it was raised:
prior transactions applied, nothing sent for the failing one), or
non-termination. -/
inductive RunOut where
  | ok (t : TagSt)
  | raise (msg : String) (t : TagSt)
  | diverge

/-- Result of running the getter's read loop. -/
inductive ReadOut where
  | ok (data : Bytes) (t : TagSt)
  | raise (msg : String) (t : TagSt)
  | diverge

/-- The chunked-read loop of the `message` getter (tt3.py lines 109-115),
with `acc` accumulating the data read so far.  `.raise` propagates a
ValueError from `Type3Tag.read` (a chunk of 121 or more blocks overflows
the frame's length prefix); fuel exhaustion (`.diverge`) models
non-termination of the Python `while` loop (possible when `nb_max = 0`). -/
def readLoop (fuel : Nat) (s : TagSt) (blocks : List Nat) (nb_max : Nat)
    (acc : Bytes) : ReadOut :=
  match fuel with
  | 0 => .diverge
  | fuel + 1 =>
    if nb_max < blocks.length then
      match tagRead s (blocks.take nb_max) with
      | .error m => .raise m s
      | .ok (d, s') => readLoop fuel s' (blocks.drop nb_max) nb_max (acc ++ d)
    else if 0 < blocks.length then
      match tagRead s blocks with
      | .error m => .raise m s
      | .ok (d, s') => .ok (acc ++ d) s'
    else .ok acc s

/-- Outcome of the `message` getter: the message data, a propagating
exception, or non-termination. -/
inductive GetOut where
  | ok (data : Bytes)
  | raise (msg : String)
  | diverge
deriving Repr, DecidableEq

/-- The `message` property getter (tt3.py lines 103-117): read the attribute
block, derive the message length and block range, read the data blocks in
chunks of at most Nbr blocks, invalidate the cache and return the first
`length` bytes. -/
def ndefGet (s : NDEFSt) : GetOut × NDEFSt :=
  match getAttr s with
  | .error m => (.raise m, s)
  | .ok (a, s1) =>
    let length := a.getD 11 0 * 65536 + a.getD 12 0 * 256 + a.getD 13 0
    let blocks := List.range' 1 ((length + 15) / 16)
    let nb_max := a.getD 1 0
    match readLoop (blocks.length + 1) s1.tag blocks nb_max [] with
    | .diverge => (.diverge, s1)
    | .raise m t => (.raise m, ⟨t, s1.cachedAttr⟩)
    | .ok d t => (.ok (d.take length), ⟨t, none⟩)

/-- The chunked-write loop of the `message` setter (tt3.py lines 136-146).
Mirrors the source: while more than `nb_max` blocks remain, write the next
`nb_max`-block slice of (unpadded) `data`; the final short transaction pads
`data` with zero bytes to a multiple of 16 and writes the rest.  `.raise`
propagates a ValueError from `Type3Tag.write` (a transaction of 14 or more
blocks overflows the frame's length prefix); fuel exhaustion models
non-termination (possible when `nb_max = 0`). -/
def writeLoop (fuel : Nat) (s : TagSt) (data : Bytes) (blocks : List Nat)
    (nb_max offset : Nat) : RunOut :=
  match fuel with
  | 0 => .diverge
  | fuel + 1 =>
    if nb_max < blocks.length then
      match tagWrite s (pySlice data offset (offset + nb_max * 16)) (blocks.take nb_max) with
      | .error m => .raise m s
      | .ok s' => writeLoop fuel s' data (blocks.drop nb_max) nb_max (offset + nb_max * 16)
    else if 0 < blocks.length then
      let padded := data ++ List.replicate ((16 - data.length % 16) % 16) 0
      match tagWrite s (padded.drop offset) blocks with
      | .error m => .raise m s
      | .ok s' => .ok s'
    else .ok s

/-- The attribute block the setter writes first (tt3.py lines 131-133):
byte 9 set to 0x0F (write in progress), bytes 11-13 set to the 24-bit message
length `K`, bytes 14-15 recomputed as the checksum of the mutated bytes
0-13. -/
def attrBegin (a0 : Bytes) (K : Nat) : Bytes :=
  let a1 := a0.set 9 15
  let a2 := a1.take 11 ++ split3 K ++ a1.drop 14
  a2.take 14 ++ split2 (a2.take 14).sum

/-- The attribute block the setter writes last (tt3.py lines 148-149):
byte 9 cleared to 0x00 and the checksum recomputed again. -/
def attrEnd (a0 : Bytes) (K : Nat) : Bytes :=
  let b1 := (attrBegin a0 K).set 9 0
  b1.take 14 ++ split2 (b1.take 14).sum

/-- Outcome of the `message` setter. -/
inductive SetOut where
  | ok
  | err (msg : String)
  | diverge
deriving Repr, DecidableEq

/-- The `message` property setter (tt3.py lines 119-151).  In order: the
writeable policy check, the capacity check, writing block 0 with the
write-in-progress byte 0x0F / updated length / fresh checksum, the chunked
data-block writes starting at block 1, and the final block-0 write with the
in-progress byte cleared; the cache is invalidated on success.  `.err`
carries the message of the raised IOError or of a ValueError propagating
from `Type3Tag.write`.  The source's local `attr` aliases the `self._attr`
bytearray, so after the in-place mutations of lines 131-133 an exception
leaves the cache holding the mutated block (`attrBegin`, then `attrEnd`
once lines 148-149 have run). -/
def ndefSet (s : NDEFSt) (data : Bytes) : SetOut × NDEFSt :=
  match getAttr s with
  | .error m => (.err m, s)
  | .ok (a0, s1) =>
    if pyBool (a0.getD 10 0) = false then
      (.err "tag writing disabled", s1)
    else if (a0.getD 3 0 * 256 + a0.getD 4 0) * 16 < data.length then
      (.err "ndef message beyond tag capacity", s1)
    else
      let a3 := attrBegin a0 data.length
      match tagWrite s1.tag a3 [0] with
      | .error m => (.err m, ⟨s1.tag, some a3⟩)
      | .ok t1 =>
        let blocks := List.range' 1 ((data.length + 15) / 16)
        match writeLoop (blocks.length + 1) t1 data blocks (a0.getD 2 0) 0 with
        | .diverge => (.diverge, ⟨t1, some a3⟩)
        | .raise m t => (.err m, ⟨t, some a3⟩)
        | .ok t2 =>
          let b2 := attrEnd a0 data.length
          match tagWrite t2 b2 [0] with
          | .error m => (.err m, ⟨t2, some (attrEnd a0 data.length)⟩)
          | .ok t3 => (.ok, ⟨t3, none⟩)

/-- A registered emulation service: the block-read and block-write callbacks
(tt3.py `add_service`).  Callbacks may carry effects over an abstract state
`σ` (a Python callback is an arbitrary function); the read callback returns
the block data or `none`, the write callback returns its success flag. -/
structure Service (σ : Type) where
  read : Nat → Bool → Bool → σ → Option Bytes × σ
  write : Nat → Bytes → Bool → Bool → σ → Bool × σ

/-- `Type3TagEmulation` identity and service registry (tt3.py lines 247-262):
the registry is the partial map `services` from 16-bit service code to the
callback pair. -/
structure Emu (σ : Type) where
  idm : Bytes
  pmm : Bytes
  sc : Bytes
  services : Nat → Option (Service σ)

/-- Outcome of one service-list parsing pass (tt3.py lines 307-313 and
352-358): an uncaught IndexError (`raise`, from `cmd_data[1]` /
`cmd_data[0]` when fewer than 2 bytes remain), the early `(0xFF, 0xA1)`
return on an unregistered service code, or the parsed `[service_code, 0]`
list plus the remaining command bytes. -/
inductive SvcParse where
  | raise
  | unknown
  | ok (svcs : List (Nat × Nat)) (rest : Bytes)
deriving Repr, DecidableEq

/-- The service-list loop shared by `read_without_encryption` and
`write_without_encryption`: `n` iterations, each decoding a little-endian
2-byte service code, rejecting codes not in the registry, and consuming
2 bytes. -/
def parseServiceList (e : Emu σ) : Nat → Bytes → SvcParse
  | 0, cd => .ok [] cd
  | n + 1, c0 :: c1 :: rest =>
    let code := c1 <<< 8 ||| c0
    if (e.services code).isSome then
      match parseServiceList e n rest with
      | .ok svcs r => .ok ((code, 0) :: svcs) r
      | x => x
    else .unknown
  | _ + 1, _ => .raise

/-- Outcome of the block-list parsing pass (tt3.py lines 315-329 and
360-374): an uncaught IndexError from the 1- or 3-byte block-number bytes
missing after the (caught) service-index lookup, the `(1 << (i % 8), 0xA3)`
early return when the service-list index lookup raises IndexError (offending
entry at position `i`), or the updated per-index counters, the parsed
`(service_code, block_number)` list, and the remaining bytes. -/
inductive BlkParse where
  | raise
  | errA3 (status : Bytes)
  | ok (svcs : List (Nat × Nat)) (sbl : List (Nat × Nat)) (rest : Bytes)
deriving Repr, DecidableEq

/-- The block-list loop: each entry references a service-list slot via the
low nibble of its first byte (incrementing that slot's counter in place) and
carries a 1-byte block number if bit 0x80 of the first byte is set, else a
2-byte little-endian one.  Python catches the IndexError of an empty
`cmd_data[0]` or an out-of-range service index and returns the 0xA3 status;
a missing block-number byte after a successful index lookup raises. -/
def parseBlockList : List (Nat × Nat) → Nat → Nat → Bytes → BlkParse
  | svcs, 0, _, cd => .ok svcs [] cd
  | _, _ + 1, i, [] => .errA3 [1 <<< (i % 8), 0xA3]
  | svcs, n + 1, i, e0 :: cd =>
    match svcs[e0 &&& 0x0F]? with
    | none => .errA3 [1 <<< (i % 8), 0xA3]
    | some (code, cnt) =>
      let svcs' := svcs.set (e0 &&& 0x0F) (code, cnt + 1)
      if 128 ≤ e0 then
        match cd with
        | [] => .raise
        | b1 :: cd' =>
          match parseBlockList svcs' n (i + 1) cd' with
          | .ok svcsF sbl rest => .ok svcsF ((code, b1) :: sbl) rest
          | x => x
      else
        match cd with
        | b1 :: b2 :: cd' =>
          match parseBlockList svcs' n (i + 1) cd' with
          | .ok svcsF sbl rest => .ok svcsF ((code, b2 <<< 8 ||| b1) :: sbl) rest
          | x => x
        | _ => .raise

/-- Python `dict(service_list)`: an association lookup where a later pair
with the same key overwrites an earlier one. -/
def dictOf (l : List (Nat × Nat)) : Nat → Option Nat :=
  fun k => (l.reverse.find? (fun p => p.1 == k)).map (fun p => p.2)

/-- Outcome of an emulation command handler: a response payload, or an
uncaught Python exception. -/
inductive HOut where
  | raise
  | resp (r : Bytes)
deriving Repr, DecidableEq

/-- The read-processing loop (tt3.py lines 336-349): per annotated entry
`(service_code, block_number, block_count)` compute the begin marker
(`block_count == service_block_count[service_code]`), decrement the mutable
per-service counter (which Python lets go negative, hence `Int`), compute
the end marker (counter reached 0), and invoke the read callback; a `none`
result aborts with `(1 << (i % 8), 0xA2, 0)`.  The final success response
is `(0, 0, len(block_data)/16)` + data; building it raises ValueError if
`len(block_data)/16` exceeds a byte (bytearray range), which the model keeps
faithful.  A registry miss would be an uncaught KeyError (`raise`);
reachable code always finds the service. -/
def processRead (e : Emu σ) : List (Nat × Nat × Nat) → (Nat → Int) → Nat → Bytes → σ →
    HOut × σ
  | [], _, _, acc, s =>
    if acc.length / 16 ≤ 255 then (.resp ([0, 0, acc.length / 16] ++ acc), s)
    else (.raise, s)
  | (code, bn, total) :: rest, counts, i, acc, s =>
    let rb := (total : Int) == counts code
    let counts' := fun c => if c = code then counts code - 1 else counts c
    let re := counts' code == 0
    match e.services code with
    | none => (.raise, s)
    | some svc =>
      match svc.read bn rb re s with
      | (none, s') => (.resp [1 <<< (i % 8), 0xA2, 0], s')
      | (some d, s') => processRead e rest counts' (i + 1) (acc ++ d) s'

/-- `Type3TagEmulation.read_without_encryption` (tt3.py lines 306-349). -/
def read_without_encryption (e : Emu σ) (cmd_data : Bytes) (s : σ) : HOut × σ :=
  match cmd_data with
  | [] => (.raise, s)
  | n :: cd1 =>
    match parseServiceList e n cd1 with
    | .raise => (.raise, s)
    | .unknown => (.resp [255, 0xA1], s)
    | .ok svcs cd2 =>
      match cd2 with
      | [] => (.raise, s)
      | m :: cd3 =>
        match parseBlockList svcs m 0 cd3 with
        | .raise => (.raise, s)
        | .errA3 st => (.resp st, s)
        | .ok svcs2 sbl _ =>
          let totals := dictOf svcs2
          let sbl2 := sbl.map (fun p => (p.1, p.2, (totals p.1).getD 0))
          processRead e sbl2 (fun c => ((totals c).getD 0 : Int)) 0 [] s

/-- The write-processing loop (tt3.py lines 385-393): same begin/end marker
computation as the read loop; entry `i` receives the payload slice
`block_data[i*16:(i+1)*16]` (clamping, so short or empty past the payload
end); a callback returning false aborts with `(1 << (i % 8), 0xA2, 0)`; full
success answers `(0, 0)`. -/
def processWrite (e : Emu σ) (block_data : Bytes) :
    List (Nat × Nat × Nat) → (Nat → Int) → Nat → σ → HOut × σ
  | [], _, _, s => (.resp [0, 0], s)
  | (code, bn, total) :: rest, counts, i, s =>
    let wb := (total : Int) == counts code
    let counts' := fun c => if c = code then counts code - 1 else counts c
    let we := counts' code == 0
    match e.services code with
    | none => (.raise, s)
    | some svc =>
      match svc.write bn (pySlice block_data (i * 16) ((i + 1) * 16)) wb we s with
      | (false, s') => (.resp [1 <<< (i % 8), 0xA2, 0], s')
      | (true, s') => processWrite e block_data rest counts' (i + 1) s'

/-- `Type3TagEmulation.write_without_encryption` (tt3.py lines 351-395): after
the two parsing passes the remaining bytes are the block data, rejected with
`(0xFF, 0xA2)` unless a multiple of 16 bytes. -/
def write_without_encryption (e : Emu σ) (cmd_data : Bytes) (s : σ) : HOut × σ :=
  match cmd_data with
  | [] => (.raise, s)
  | n :: cd1 =>
    match parseServiceList e n cd1 with
    | .raise => (.raise, s)
    | .unknown => (.resp [255, 0xA1], s)
    | .ok svcs cd2 =>
      match cd2 with
      | [] => (.raise, s)
      | m :: cd3 =>
        match parseBlockList svcs m 0 cd3 with
        | .raise => (.raise, s)
        | .errA3 st => (.resp st, s)
        | .ok svcs2 sbl block_data =>
          if block_data.length % 16 != 0 then (.resp [255, 0xA2], s)
          else
            let totals := dictOf svcs2
            let sbl2 := sbl.map (fun p => (p.1, p.2, (totals p.1).getD 0))
            processWrite e block_data sbl2 (fun c => ((totals c).getD 0 : Int)) 0 s

/-- `Type3TagEmulation.polling` (tt3.py lines 296-301); `none` models the
IndexError when `cmd_data[2]` is absent. -/
def polling (e : Emu σ) (cd : Bytes) : Option Bytes :=
  match cd[2]? with
  | none => none
  | some rc => some (if rc = 1 then e.idm ++ e.pmm ++ e.sc else e.idm ++ e.pmm)

/-- Outcome of `send_response` for one inbound frame: one response frame sent,
no response sent, or an uncaught Python exception. -/
inductive DOut where
  | resp (frame : Bytes)
  | noResp
  | raise
deriving Repr, DecidableEq

/-- Build the outbound frame `bytearray([lenByte, code]) + idm + payload`;
raises (ValueError) when the length byte exceeds 255, exactly as
`bytearray` does in the source. -/
def mkFrame (lenByte code : Nat) (idm payload : Bytes) : DOut :=
  if lenByte ≤ 255 then .resp ([lenByte, code] ++ idm ++ payload) else .raise

/-- The command dispatch of `Type3TagEmulation.send_response`
(tt3.py lines 273-294) after the polling branch: `cmd[1]` raises IndexError
on a 1-byte frame; each recognized command with a matching IDm runs its
handler and wraps the result, otherwise the polling response (if any) or no
response stands. -/
def afterPolling (e : Emu σ) (cmd : Bytes) (s : σ) (rsp0 : Option Bytes) : DOut × σ :=
  match cmd[1]? with
  | none => (.raise, s)
  | some c1 =>
    let idmOK := (cmd.drop 2).take 8 == e.idm
    if c1 == 4 && idmOK then
      (mkFrame (10 + 1) 5 e.idm [0], s)
    else if c1 == 6 && idmOK then
      match read_without_encryption e (cmd.drop 10) s with
      | (.raise, s') => (.raise, s')
      | (.resp r, s') => (mkFrame (10 + r.length) 7 e.idm r, s')
    else if c1 == 8 && idmOK then
      match write_without_encryption e (cmd.drop 10) s with
      | (.raise, s') => (.raise, s')
      | (.resp r, s') => (mkFrame (10 + r.length) 9 e.idm r, s')
    else if c1 == 12 && idmOK then
      (mkFrame (10 + (1 + e.sc.length)) 13 e.idm ([1] ++ e.sc), s)
    else
      match rsp0 with
      | some r => (.resp r, s)
      | none => (.noResp, s)

/-- `Type3TagEmulation.send_response` (tt3.py lines 273-294): the polling
pattern `cmd[0:4] in [(6,0,255,255), (6,0)+sc]` is checked first and its
response kept unless one of the IDm-addressed commands matches. -/
def send_response (e : Emu σ) (cmd : Bytes) (s : σ) : DOut × σ :=
  if cmd.take 4 = [6, 0, 255, 255] ∨ cmd.take 4 = [6, 0] ++ e.sc then
    match polling e (cmd.drop 2) with
    | none => (.raise, s)
    | some r =>
      if 2 + r.length ≤ 255 then afterPolling e cmd s (some ([2 + r.length, 1] ++ r))
      else (.raise, s)
  else afterPolling e cmd s none

/-! ### Arithmetic helpers for the bit-level wire formats -/

lemma shiftLeft_lor_eq_add (a b k : Nat) (h : b < 2 ^ k) :
    a <<< k ||| b = a * 2 ^ k + b := by
  calc a <<< k ||| b = 2 ^ k * a ||| b := by rw [Nat.shiftLeft_eq, Nat.mul_comm]
    _ = 2 ^ k * a + b := (Nat.mul_add_lt_is_or h a).symm
    _ = a * 2 ^ k + b := by rw [Nat.mul_comm]

lemma and_15_eq_mod (x : Nat) : x &&& 15 = x % 16 := Nat.and_pow_two_sub_one_eq_mod x 4

lemma and_255_eq_mod (x : Nat) : x &&& 255 = x % 256 := Nat.and_pow_two_sub_one_eq_mod x 8

lemma and_65535_eq_mod (x : Nat) : x &&& 65535 = x % 65536 :=
  Nat.and_pow_two_sub_one_eq_mod x 16

lemma shiftRight_8 (x : Nat) : x >>> 8 = x / 256 := Nat.shiftRight_eq_div_pow x 8

lemma shiftRight_16 (x : Nat) : x >>> 16 = x / 65536 := Nat.shiftRight_eq_div_pow x 16

lemma shiftRight_4 (x : Nat) : x >>> 4 = x / 16 := Nat.shiftRight_eq_div_pow x 4

/-- C9 key identity: the 3-byte form decodes back. -/
lemma lo_hi_decode (n : Nat) : (n / 256) <<< 8 ||| n % 256 = n := by
  rw [shiftLeft_lor_eq_add _ _ _ (by omega : n % 256 < 2 ^ 8)]
  omega

/-- C9: For every block number `n < 65536`, the reader-side wire encoding
(`\x80` + n for n < 256, else `\x00` + little-endian 16-bit form, tt3.py
lines 198-200) is decoded by the emulation-side block-list parser
(tt3.py lines 316-329) back to exactly `n`, the 1- versus 3-byte form being
selected by bit 0x80 of the first byte.  Stated for a block-list entry
referencing service-list slot 0. -/
theorem C9_block_address_roundtrip (n : Nat) (hn : n < 65536)
    (svcs : List (Nat × Nat)) (c cnt : Nat) (h0 : svcs[0]? = some (c, cnt))
    (i : Nat) (rest : Bytes) :
    parseBlockList svcs 1 i (encodeBlockAddr n ++ rest) =
      .ok (svcs.set 0 (c, cnt + 1)) [(c, n)] rest := by
  by_cases h : n < 256
  · simp only [encodeBlockAddr, if_pos h, List.cons_append, List.nil_append]
    simp [parseBlockList, h0, show (128 &&& 15 : Nat) = 0 by decide]
  · simp only [encodeBlockAddr, if_neg h, List.cons_append, List.nil_append]
    simp [parseBlockList, h0, show (0 &&& 15 : Nat) = 0 by decide, lo_hi_decode]

/-- Witness for C9 at block number 700: the encoding is `[0x00, 0xBC, 0x02]`
and the parser recovers 700. -/
theorem C9_block_address_roundtrip_witness :
    (700 < 65536 ∧ ([(11, 0)] : List (Nat × Nat))[0]? = some (11, 0)) ∧
      parseBlockList [(11, 0)] 1 0 (encodeBlockAddr 700 ++ [9, 9]) =
        .ok [(11, 1)] [(11, 700)] [9, 9] :=
  ⟨⟨by decide, by decide⟩, C9_block_address_roundtrip 700 (by decide) [(11, 0)] 11 0 rfl 0 [9, 9]⟩

lemma version_digits_split (hi lo : Nat) (hhi : hi < 16) (hlo : lo < 16) :
    (splitOnDot (Nat.toDigits 10 hi ++ '.' :: Nat.toDigits 10 lo)).map parseDecimal
      = [some hi, some lo] := by
  interval_cases hi <;> interval_cases lo <;> decide

lemma three_byte_decode (x y z : Nat) (hy : y < 256) (hz : z < 256) :
    x <<< 16 ||| y <<< 8 ||| z = (x * 256 + y) * 256 + z := by
  have e1 : (2 : Nat) ^ 16 = 65536 := by norm_num
  have e2 : (2 : Nat) ^ 8 = 256 := by norm_num
  have h8 : y <<< 8 = y * 256 := by rw [Nat.shiftLeft_eq, e2]
  have hb : y <<< 8 < 2 ^ 16 := by rw [h8, e1]; omega
  have h1 : x <<< 16 ||| y <<< 8 = x * 65536 + y * 256 := by
    rw [shiftLeft_lor_eq_add x (y <<< 8) 16 hb, h8, e1]
  have h2 : x * 65536 + y * 256 = (x * 256 + y) <<< 8 := by
    rw [Nat.shiftLeft_eq, e2]; ring
  rw [h1, h2, shiftLeft_lor_eq_add _ z 8 (by rw [e2]; omega), e2]

lemma nibble_pack_hi (hi lo : Nat) (hlo : lo < 16) :
    (hi <<< 4 ||| lo) >>> 4 = hi := by
  rw [shiftLeft_lor_eq_add hi lo 4 (by norm_num; omega), shiftRight_4]
  have : (2 : Nat) ^ 4 = 16 := by norm_num
  rw [this]; omega

lemma nibble_pack_lo (hi lo : Nat) (hlo : lo < 16) :
    (hi <<< 4 ||| lo) &&& 15 = lo := by
  rw [shiftLeft_lor_eq_add hi lo 4 (by norm_num; omega), and_15_eq_mod]
  have : (2 : Nat) ^ 4 = 16 := by norm_num
  rw [this]; omega

/-- C7: For every well-formed attribute block value (version string
`"hi.lo"` with nibbles in range, byte-sized Nbr/Nbw, capacity a multiple of
16 below 2^16 * 16, message length below 2^24), `serialize` succeeds, `parse`
of its output recovers every field, flags the block valid, and the two
checksum bytes of the output equal the big-endian sum of its first 14
bytes. -/
theorem C7_attribute_block_roundtrip (d : NdefAttributeData) (hi lo : Nat)
    (hhi : hi < 16) (hlo : lo < 16)
    (hv : d.version = Nat.toDigits 10 hi ++ '.' :: Nat.toDigits 10 lo)
    (hnbr : d.nbr < 256) (hnbw : d.nbw < 256)
    (hcap16 : d.capacity % 16 = 0) (hcap : d.capacity < 16 * 65536)
    (hlen : d.length < 16777216) :
    ∃ a, d.serialize = some a ∧
      (NdefAttributeData.parse a).version = d.version ∧
      (NdefAttributeData.parse a).nbr = d.nbr ∧
      (NdefAttributeData.parse a).nbw = d.nbw ∧
      (NdefAttributeData.parse a).capacity = d.capacity ∧
      (NdefAttributeData.parse a).writing = d.writing ∧
      (NdefAttributeData.parse a).writeable = d.writeable ∧
      (NdefAttributeData.parse a).length = d.length ∧
      (NdefAttributeData.parse a).valid = true ∧
      (a.getD 14 0) * 256 + a.getD 15 0 = (a.take 14).sum := by
  have hsplit := version_digits_split hi lo hhi hlo
  have hcapv : ((d.capacity + 15) / 16) &&& 65535 = d.capacity / 16 := by
    rw [and_65535_eq_mod]; omega
  set front : Bytes :=
    [(hi &&& 15) <<< 4 ||| (lo &&& 15), d.nbr, d.nbw,
     (d.capacity / 16) >>> 8, (d.capacity / 16) &&& 0xff,
     0, 0, 0, 0,
     if d.writing then 15 else 0, if d.writeable then 1 else 0,
     d.length >>> 16 &&& 0xff, d.length >>> 8 &&& 0xff, d.length &&& 0xff] with hfront
  have hser : d.serialize = some (front ++ [front.sum >>> 8, front.sum &&& 0xff]) := by
    simp only [NdefAttributeData.serialize, hv, hsplit, hfront, hcapv]
    simp [hnbr, hnbw]
  have hmhi : hi &&& 15 = hi := by rw [and_15_eq_mod]; omega
  have hmlo : lo &&& 15 = lo := by rw [and_15_eq_mod]; omega
  refine ⟨_, hser, ?_, rfl, rfl, ?_, ?_, ?_, ?_, ?_, ?_⟩
  · show Nat.toDigits 10 (((hi &&& 15) <<< 4 ||| (lo &&& 15)) >>> 4) ++
      '.' :: Nat.toDigits 10 (((hi &&& 15) <<< 4 ||| (lo &&& 15)) &&& 15) = d.version
    rw [hmhi, hmlo, nibble_pack_hi hi lo hlo, nibble_pack_lo hi lo hlo, hv]
  · show ((d.capacity / 16) >>> 8 * 256 + ((d.capacity / 16) &&& 0xff)) * 16 = d.capacity
    rw [shiftRight_8, and_255_eq_mod]; omega
  · show pyBool (if d.writing then 15 else 0) = d.writing
    cases d.writing <;> decide
  · show pyBool (if d.writeable then 1 else 0) = d.writeable
    cases d.writeable <;> decide
  · show (d.length >>> 16 &&& 0xff) <<< 16 ||| (d.length >>> 8 &&& 0xff) <<< 8 |||
      (d.length &&& 0xff) = d.length
    rw [three_byte_decode _ _ _ (by rw [and_255_eq_mod]; omega) (by rw [and_255_eq_mod]; omega)]
    rw [and_255_eq_mod, and_255_eq_mod, and_255_eq_mod, shiftRight_8, shiftRight_16]
    omega
  · show (front.sum == (front.sum >>> 8) <<< 8 ||| (front.sum &&& 0xff)) = true
    rw [shiftRight_8, and_255_eq_mod, lo_hi_decode]
    simp
  · show (front.sum >>> 8) * 256 + (front.sum &&& 0xff) = front.sum
    rw [shiftRight_8, and_255_eq_mod]; omega

/-- Witness for C7 at a concrete well-formed block (version 1.0, Nbr 4,
Nbw 1, capacity 64, message length 18, writeable). -/
theorem C7_attribute_block_roundtrip_witness :
    (1 < 16 ∧ 0 < 16 ∧ 4 < 256 ∧ 1 < 256 ∧ 64 % 16 = 0 ∧ 64 < 16 * 65536 ∧
        18 < 16777216) ∧
      ∃ a, NdefAttributeData.serialize
          ⟨['1', '.', '0'], 4, 1, 64, false, true, 18, true⟩ = some a ∧
        (NdefAttributeData.parse a).version = ['1', '.', '0'] ∧
        (NdefAttributeData.parse a).nbr = 4 ∧
        (NdefAttributeData.parse a).nbw = 1 ∧
        (NdefAttributeData.parse a).capacity = 64 ∧
        (NdefAttributeData.parse a).writing = false ∧
        (NdefAttributeData.parse a).writeable = true ∧
        (NdefAttributeData.parse a).length = 18 ∧
        (NdefAttributeData.parse a).valid = true ∧
        (a.getD 14 0) * 256 + a.getD 15 0 = (a.take 14).sum :=
  ⟨⟨by decide, by decide, by decide, by decide, by decide, by decide, by decide⟩,
    C7_attribute_block_roundtrip ⟨['1', '.', '0'], 4, 1, 64, false, true, 18, true⟩ 1 0
      (by decide) (by decide) (by decide) (by decide) (by decide) (by decide)
      (by decide) (by decide)⟩

/-! ### Loop and storage lemmas for the NDEF message accessor -/

def evBlocks : Ev → List Nat
  | .read bl => bl
  | .write _ bl => bl

def evData : Ev → Bytes
  | .read _ => []
  | .write d _ => d

lemma storeBlocks_append (m : Nat → Bytes) (bl1 bl2 : List Nat) (d1 d2 : Bytes)
    (h1 : d1.length = 16 * bl1.length) :
    storeBlocks m (bl1 ++ bl2) (d1 ++ d2) = storeBlocks (storeBlocks m bl1 d1) bl2 d2 := by
  induction bl1 generalizing m d1 with
  | nil =>
    simp only [List.length_nil, Nat.mul_zero] at h1
    have : d1 = [] := List.length_eq_zero.mp h1
    simp [this, storeBlocks]
  | cons x xs ih =>
    simp only [List.cons_append, storeBlocks, List.append_eq]
    have hlen : 16 ≤ d1.length := by simp at h1; omega
    rw [List.take_append_of_le_length hlen, List.drop_append_of_le_length hlen]
    rw [ih _ _ (by simp only [List.length_drop]; simp at h1; omega)]

/-- A successful `Type3Tag.write` pins the data length and the new state. -/
lemma tagWrite_ok (s : TagSt) (d : Bytes) (bl : List Nat) (t : TagSt)
    (h : tagWrite s d bl = .ok t) :
    d.length = 16 * bl.length ∧
      t = ⟨storeBlocks s.mem bl d, s.trace ++ [.write d bl]⟩ := by
  simp only [tagWrite] at h
  by_cases h1 : d.length = 16 * bl.length
  · rw [if_pos h1] at h
    by_cases h2 : chrOK bl d.length = true
    · rw [if_pos h2] at h
      cases h
      exact ⟨h1, rfl⟩
    · rw [if_neg h2] at h
      cases h
  · rw [if_neg h1] at h
    cases h

/-- Zero-padding of the message to a multiple of 16 bytes
(`data += (-len(data) % 16) * chr(0)`, tt3.py line 145). -/
def padTo16 (data : Bytes) : Bytes :=
  data ++ List.replicate ((16 - data.length % 16) % 16) 0

lemma padTo16_length (data : Bytes) :
    (padTo16 data).length = 16 * ((data.length + 15) / 16) := by
  simp only [padTo16, List.length_append, List.length_replicate]
  omega

lemma padTo16_take (data : Bytes) (n : Nat) (h : n ≤ data.length) :
    (padTo16 data).take n = data.take n := List.take_append_of_le_length h

/-- With `nb_max = 0` and blocks remaining, the write loop never succeeds:
each iteration writes an empty transaction and drops nothing, so only fuel
exhaustion (the model of non-termination) ends it. -/
lemma writeLoop_zero_not_ok :
    ∀ (fuel : Nat) (blocks : List Nat) (s : TagSt) (data : Bytes) (offset : Nat) (t : TagSt),
      0 < blocks.length →
      writeLoop fuel s data blocks 0 offset ≠ .ok t := by
  intro fuel
  induction fuel with
  | zero =>
    intro blocks s data offset t hb h
    simp only [writeLoop] at h
    cases h
  | succ fuel ih =>
    intro blocks s data offset t hb h
    simp only [writeLoop, if_pos hb] at h
    cases htw : tagWrite s (pySlice data offset (offset + 0 * 16)) (blocks.take 0) with
    | error m =>
      rw [htw] at h
      cases h
    | ok s' =>
      rw [htw] at h
      dsimp only at h
      simp only [List.drop_zero] at h
      exact ih blocks s' data (offset + 0 * 16) t hb h

/-- Success-conditioned characterization of the write loop: whenever it
returns `.ok`, no transaction raised, the final state stores exactly the
padded data in the listed blocks, and the appended trace partitions the
block list into consecutive write transactions of at most `nb_max` blocks,
numbering ceil(blocks / nb_max).  No bound on `nb_max` is assumed: a
transaction too large for the frame makes the loop raise, not succeed. -/
lemma writeLoop_ok_spec (L : Nat) :
    ∀ (fuel : Nat) (blocks : List Nat) (s : TagSt) (data : Bytes) (offset c r : Nat) (t : TagSt),
      writeLoop fuel s data blocks L offset = .ok t →
      offset = 16 * c →
      data.length = offset + r →
      blocks.length = (r + 15) / 16 →
      ∃ evs,
        t = ⟨storeBlocks s.mem blocks ((padTo16 data).drop offset), s.trace ++ evs⟩ ∧
        (∀ e ∈ evs, ∃ dd bl, e = .write dd bl ∧ bl.length ≤ L ∧ ∀ b ∈ bl, b ∈ blocks) ∧
        (evs.map evBlocks).flatten = blocks ∧
        (evs.map evData).flatten = (padTo16 data).drop offset ∧
        evs.length = (blocks.length + (L - 1)) / L := by
  intro fuel
  induction fuel with
  | zero =>
    intro blocks s data offset c r t h _ _ _
    simp only [writeLoop] at h
    cases h
  | succ fuel ih =>
    intro blocks s data offset c r t h ho hd hb
    by_cases h1 : L < blocks.length
    · rcases Nat.eq_zero_or_pos L with rfl | hLpos
      · exact absurd h (writeLoop_zero_not_ok _ blocks s data offset t (by omega))
      have hr : 16 * L + 1 ≤ r := by omega
      have hoints : offset + L * 16 ≤ data.length := by omega
      have hslice : pySlice data offset (offset + L * 16)
          = ((padTo16 data).drop offset).take (L * 16) := by
        simp only [pySlice, padTo16]
        rw [List.take_drop, List.take_append_of_le_length hoints]
      have hslicelen : (pySlice data offset (offset + L * 16)).length = 16 * L := by
        simp only [pySlice, List.length_drop, List.length_take]
        omega
      simp only [writeLoop, if_pos h1] at h
      cases htw : tagWrite s (pySlice data offset (offset + L * 16)) (blocks.take L) with
      | error m =>
        rw [htw] at h
        cases h
      | ok s' =>
        rw [htw] at h
        dsimp only at h
        obtain ⟨hlen16, hs'⟩ := tagWrite_ok _ _ _ _ htw
        obtain ⟨evs, ht, hshape, hbl, hda, hlen⟩ :=
          ih (blocks.drop L) s' data (offset + L * 16) (c + L) (r - 16 * L) t h
            (by omega) (by omega) (by simp only [List.length_drop]; omega)
        refine ⟨.write (pySlice data offset (offset + L * 16)) (blocks.take L) :: evs,
          ?_, ?_, ?_, ?_, ?_⟩
        · rw [ht, hs']
          have hmem : storeBlocks (storeBlocks s.mem (blocks.take L)
              (pySlice data offset (offset + L * 16)))
              (blocks.drop L) ((padTo16 data).drop (offset + L * 16))
              = storeBlocks s.mem blocks ((padTo16 data).drop offset) := by
            rw [← storeBlocks_append _ _ _ _ _ (by rw [hslicelen, List.length_take]; omega)]
            rw [List.take_append_drop]
            congr 1
            rw [hslice]
            rw [show (padTo16 data).drop (offset + L * 16)
                = ((padTo16 data).drop offset).drop (L * 16) by rw [List.drop_drop]]
            rw [List.take_append_drop]
          rw [hmem]
          simp [List.append_assoc]
        · intro e he
          rcases List.mem_cons.mp he with rfl | he9
          · exact ⟨_, _, rfl, by simp only [List.length_take]; omega,
              fun b hb2 => List.take_subset _ _ hb2⟩
          · obtain ⟨dd, bl, hebl, hle, hsub⟩ := hshape e he9
            exact ⟨dd, bl, hebl, hle, fun b hb2 => List.drop_subset _ _ (hsub b hb2)⟩
        · simp only [List.map_cons, List.flatten_cons, evBlocks, hbl]
          exact List.take_append_drop _ _
        · simp only [List.map_cons, List.flatten_cons, evData, hda, hslice]
          rw [show (padTo16 data).drop (offset + L * 16)
              = ((padTo16 data).drop offset).drop (L * 16) by rw [List.drop_drop]]
          exact List.take_append_drop _ _
        · simp only [List.length_cons, hlen, List.length_drop]
          have : blocks.length + (L - 1) = (blocks.length - L + (L - 1)) + L := by omega
          rw [this, Nat.add_div_right _ (by omega)]
    · by_cases h2 : 0 < blocks.length
      · have hpl : (padTo16 data).length = 16 * ((data.length + 15) / 16) := padTo16_length data
        have hrem : ((padTo16 data).drop offset).length = 16 * blocks.length := by
          simp only [List.length_drop, hpl]
          omega
        simp only [writeLoop, if_neg h1, if_pos h2, padTo16] at h
        cases htw : tagWrite s
            ((data ++ List.replicate ((16 - data.length % 16) % 16) 0).drop offset) blocks with
        | error m =>
          rw [htw] at h
          cases h
        | ok s' =>
          rw [htw] at h
          dsimp only at h
          cases h
          obtain ⟨hlen16, hs'⟩ := tagWrite_ok _ _ _ _ htw
          refine ⟨[.write ((padTo16 data).drop offset) blocks], ?_, ?_, ?_, ?_, ?_⟩
          · rw [hs']
            simp only [padTo16]
          · intro e he
            simp only [List.mem_singleton] at he
            subst he
            exact ⟨_, _, rfl, by omega, fun b hb2 => hb2⟩
          · simp [evBlocks]
          · simp [evData]
          · simp only [List.length_cons, List.length_nil]
            exact (Nat.div_eq_of_lt_le (by omega) (by omega)).symm
      · have hble : blocks = [] := List.length_eq_zero.mp (by omega)
        have hr0 : r = 0 := by omega
        have hpad : (padTo16 data).drop offset = [] := by
          apply List.eq_nil_of_length_eq_zero
          simp only [List.length_drop, padTo16_length]
          omega
        subst hble
        simp only [writeLoop, if_neg h1, if_neg h2] at h
        cases h
        refine ⟨[], ?_, by simp, by simp, by simp [hpad], ?_⟩
        · simp [storeBlocks, hpad]
        · simp only [List.length_nil]
          rcases Nat.eq_zero_or_pos L with rfl | hL0
          · decide
          · exact (Nat.div_eq_of_lt (by omega)).symm

/-- The transport events of one `attr` property access: one block-0 read on a
cache miss, none on a hit. -/
def attrReadEvs (s : NDEFSt) : List Ev :=
  match s.cachedAttr with
  | some _ => []
  | none => [.read [0]]

lemma getAttr_spec (s : NDEFSt) :
    getAttr s = .ok (attrSeen s, ⟨⟨s.tag.mem, s.tag.trace ++ attrReadEvs s⟩, some (attrSeen s)⟩) := by
  obtain ⟨⟨mem, trace⟩, ca⟩ := s
  cases ca with
  | some a => simp [getAttr, attrSeen, attrReadEvs]
  | none =>
    have hch : chrOK [0] 0 = true := by decide
    simp [getAttr, attrSeen, attrReadEvs, tagRead, hch]

lemma exists_list16 (l : Bytes) (h : l.length = 16) :
    ∃ b0 b1 b2 b3 b4 b5 b6 b7 b8 b9 b10 b11 b12 b13 b14 b15,
      l = [b0, b1, b2, b3, b4, b5, b6, b7, b8, b9, b10, b11, b12, b13, b14, b15] := by
  rcases l with _ | ⟨b0, l⟩; · simp at h
  rcases l with _ | ⟨b1, l⟩; · simp at h
  rcases l with _ | ⟨b2, l⟩; · simp at h
  rcases l with _ | ⟨b3, l⟩; · simp at h
  rcases l with _ | ⟨b4, l⟩; · simp at h
  rcases l with _ | ⟨b5, l⟩; · simp at h
  rcases l with _ | ⟨b6, l⟩; · simp at h
  rcases l with _ | ⟨b7, l⟩; · simp at h
  rcases l with _ | ⟨b8, l⟩; · simp at h
  rcases l with _ | ⟨b9, l⟩; · simp at h
  rcases l with _ | ⟨b10, l⟩; · simp at h
  rcases l with _ | ⟨b11, l⟩; · simp at h
  rcases l with _ | ⟨b12, l⟩; · simp at h
  rcases l with _ | ⟨b13, l⟩; · simp at h
  rcases l with _ | ⟨b14, l⟩; · simp at h
  rcases l with _ | ⟨b15, l⟩; · simp at h
  rcases l with _ | ⟨b16, l⟩
  · exact ⟨b0, b1, b2, b3, b4, b5, b6, b7, b8, b9, b10, b11, b12, b13, b14, b15, rfl⟩
  · simp at h

lemma attrBegin_length (a0 : Bytes) (K : Nat) (h : a0.length = 16) :
    (attrBegin a0 K).length = 16 := by
  simp [attrBegin, split2, split3, h]

lemma take14_sum_checksum (l : Bytes) (h : l.length = 14) :
    checksumOK (l ++ split2 l.sum) = true := by
  have h14 : (l ++ split2 l.sum).take 14 = l := by
    rw [show (14 : Nat) = l.length from h.symm]
    exact List.take_left l _
  have h14' : (l ++ split2 l.sum).getD 14 0 = l.sum / 256 := by
    rw [List.getD_append_right _ _ 0 14 (by omega)]
    simp [split2, h]
  have h15' : (l ++ split2 l.sum).getD 15 0 = l.sum % 256 := by
    rw [List.getD_append_right _ _ 0 15 (by omega)]
    simp [split2, h]
  simp only [checksumOK, h14, h14', h15', lo_hi_decode]
  simp

lemma checksumOK_attrBegin (a0 : Bytes) (K : Nat) (h : a0.length = 16) :
    checksumOK (attrBegin a0 K) = true := by
  simp only [attrBegin]
  apply take14_sum_checksum
  simp [split3, h]

lemma checksumOK_attrEnd (a0 : Bytes) (K : Nat) (h : a0.length = 16) :
    checksumOK (attrEnd a0 K) = true := by
  simp only [attrEnd]
  apply take14_sum_checksum
  simp [attrBegin_length a0 K h]

lemma attrBegin_getD (b0 b1 b2 b3 b4 b5 b6 b7 b8 b9 b10 b11 b12 b13 b14 b15 K : Nat) :
    (attrBegin [b0, b1, b2, b3, b4, b5, b6, b7, b8, b9, b10, b11, b12, b13, b14, b15] K).getD 9 0 = 15 ∧
    pySlice (attrBegin [b0, b1, b2, b3, b4, b5, b6, b7, b8, b9, b10, b11, b12, b13, b14, b15] K) 11 14
      = split3 K :=
  ⟨rfl, rfl⟩

/-- Success-conditioned characterization of the setter's transport trace,
with no bound on Nbw: whenever `Set` returns `.ok`, it produced exactly the
cache-miss read, the attr-begin write of block 0, the data-block
transactions (a partition of blocks `1..ceil(K/16)` into consecutive runs
of at most Nbw blocks carrying the zero-padded message), and the attr-end
write of block 0. -/
lemma ndefSet_ok_trace (s : NDEFSt) (msg : Bytes)
    (hok : (ndefSet s msg).1 = SetOut.ok) :
    ∃ evs,
      (ndefSet s msg).2.tag.trace =
        s.tag.trace ++ attrReadEvs s ++ [.write (attrBegin (attrSeen s) msg.length) [0]]
          ++ evs ++ [.write (attrEnd (attrSeen s) msg.length) [0]] ∧
      (∀ e ∈ evs, ∃ dd bl, e = .write dd bl ∧ bl.length ≤ (attrSeen s).getD 2 0 ∧
        ∀ b ∈ bl, b ∈ List.range' 1 ((msg.length + 15) / 16)) ∧
      (evs.map evBlocks).flatten = List.range' 1 ((msg.length + 15) / 16) ∧
      (evs.map evData).flatten = padTo16 msg ∧
      evs.length = ((msg.length + 15) / 16 + ((attrSeen s).getD 2 0 - 1))
        / ((attrSeen s).getD 2 0) := by
  simp only [ndefSet, getAttr_spec s] at hok ⊢
  by_cases hwr : pyBool ((attrSeen s).getD 10 0) = false
  · rw [if_pos hwr] at hok
    simp at hok
  · rw [if_neg hwr] at hok ⊢
    by_cases hcap : ((attrSeen s).getD 3 0 * 256 + (attrSeen s).getD 4 0) * 16 < msg.length
    · rw [if_pos hcap] at hok
      simp at hok
    · rw [if_neg hcap] at hok ⊢
      cases htw1 : tagWrite ⟨s.tag.mem, s.tag.trace ++ attrReadEvs s⟩
          (attrBegin (attrSeen s) msg.length) [0] with
      | error m =>
        rw [htw1] at hok
        simp at hok
      | ok t1 =>
        rw [htw1] at hok
        dsimp only at hok ⊢
        obtain ⟨_, ht1⟩ := tagWrite_ok _ _ _ _ htw1
        cases hwl : writeLoop ((List.range' 1 ((msg.length + 15) / 16)).length + 1) t1 msg
            (List.range' 1 ((msg.length + 15) / 16)) ((attrSeen s).getD 2 0) 0 with
        | diverge =>
          rw [hwl] at hok
          simp at hok
        | raise m t =>
          rw [hwl] at hok
          simp at hok
        | ok t2 =>
          rw [hwl] at hok
          dsimp only at hok ⊢
          obtain ⟨evs, ht2, hshape, hbl, hda, hcnt⟩ :=
            writeLoop_ok_spec ((attrSeen s).getD 2 0) _ _ t1 msg 0 0 msg.length t2 hwl
              rfl (by omega) (by simp)
          cases htw2 : tagWrite t2 (attrEnd (attrSeen s) msg.length) [0] with
          | error m =>
            rw [htw2] at hok
            simp at hok
          | ok t3 =>
            dsimp only at hok ⊢
            obtain ⟨_, ht3⟩ := tagWrite_ok _ _ _ _ htw2
            refine ⟨evs, ?_, hshape, hbl, by simpa using hda,
              by simpa using hcnt⟩
            rw [ht3]
            dsimp only
            rw [ht2]
            dsimp only
            rw [ht1]

/-- C2 (amended): on every Set that returns successfully, the data-block
writes between the two attribute writes number exactly ceil(ceil(K/16)/L)
for the K-byte message and per-transaction limit L = Nbw, each addresses at
most L blocks, the addressed blocks are 1 upward and consecutive (their
concatenation is `range' 1 (ceil(K/16))`), and the concatenation of the
data passed to them is the message zero-padded to a multiple of 16 bytes.
(Unconditionally the formula fails: a transaction of 14 or more blocks
makes `Type3Tag.write` raise ValueError in `chr(len(cmd)+1)` (tt3.py line
237) before the request is sent; see the counterexample.) -/
theorem C2_chunking (s : NDEFSt) (msg : Bytes)
    (hok : (ndefSet s msg).1 = SetOut.ok) :
    ∃ evs,
      (ndefSet s msg).2.tag.trace =
        s.tag.trace ++ attrReadEvs s ++ [.write (attrBegin (attrSeen s) msg.length) [0]]
          ++ evs ++ [.write (attrEnd (attrSeen s) msg.length) [0]] ∧
      evs.length = ((msg.length + 15) / 16 + ((attrSeen s).getD 2 0 - 1)) / (attrSeen s).getD 2 0 ∧
      (∀ e ∈ evs, ∃ dd bl, e = .write dd bl ∧ bl.length ≤ (attrSeen s).getD 2 0) ∧
      (evs.map evBlocks).flatten = List.range' 1 ((msg.length + 15) / 16) ∧
      (evs.map evData).flatten = msg ++ List.replicate ((16 - msg.length % 16) % 16) 0 := by
  obtain ⟨evs, htr, hshape, hbl, hda, hcnt⟩ := ndefSet_ok_trace s msg hok
  refine ⟨evs, htr, hcnt, ?_, hbl, by simpa [padTo16] using hda⟩
  intro e he
  obtain ⟨dd, bl, h1, h2, _⟩ := hshape e he
  exact ⟨dd, bl, h1, h2⟩

/-- C8: every successful Set issues its transport writes in order: first
block 0 with byte 9 exactly 0x0F, bytes 11-13 the new message length, and a
recomputed valid checksum; then the data-block writes, none of which touches
block 0; then block 0 again with byte 9 exactly 0x00 and the checksum
recomputed.  Hence no data block is written while the tag's stored attribute
block has the in-progress flag clear. -/
theorem C8_write_order (s : NDEFSt) (msg : Bytes)
    (hlen : (attrSeen s).length = 16)
    (hok : (ndefSet s msg).1 = SetOut.ok) :
    ∃ evs,
      (ndefSet s msg).2.tag.trace =
        s.tag.trace ++ attrReadEvs s ++ [.write (attrBegin (attrSeen s) msg.length) [0]]
          ++ evs ++ [.write (attrEnd (attrSeen s) msg.length) [0]] ∧
      (attrBegin (attrSeen s) msg.length).getD 9 0 = 15 ∧
      pySlice (attrBegin (attrSeen s) msg.length) 11 14 = split3 msg.length ∧
      checksumOK (attrBegin (attrSeen s) msg.length) = true ∧
      (attrEnd (attrSeen s) msg.length).getD 9 0 = 0 ∧
      checksumOK (attrEnd (attrSeen s) msg.length) = true ∧
      ∀ e ∈ evs, ∃ dd bl, e = Ev.write dd bl ∧ 0 ∉ bl := by
  obtain ⟨evs, htr, hshape, hbl, hda, hcnt⟩ := ndefSet_ok_trace s msg hok
  obtain ⟨x0, x1, x2, x3, x4, x5, x6, x7, x8, x9, x10, x11, x12, x13, x14, x15, ha0⟩ :=
    exists_list16 (attrSeen s) hlen
  refine ⟨evs, htr, ?_, ?_, checksumOK_attrBegin _ _ hlen, ?_,
    checksumOK_attrEnd _ _ hlen, ?_⟩
  · rw [ha0]
    rfl
  · rw [ha0]
    rfl
  · rw [ha0]
    rfl
  · intro e he
    obtain ⟨dd, bl, hebl, _, hsub⟩ := hshape e he
    refine ⟨dd, bl, hebl, fun h0 => ?_⟩
    have hmem := hsub 0 h0
    rw [List.mem_range'_1] at hmem
    omega

/-- C4 (amended): Set on a tag whose visible attribute block reports
writeable == false, or with a message longer than the capacity, fails with a
policy error (IOError) having issued no transport write and left tag memory
untouched; the only transport traffic possible before the failure is the
single block-0 read of the `attr` property, issued exactly when the
attribute cache was empty (`attrReadEvs`), and none when it was populated. -/
theorem C4_policy_rejection (s : NDEFSt) (msg : Bytes)
    (hpol : pyBool ((attrSeen s).getD 10 0) = false ∨
      ((attrSeen s).getD 3 0 * 256 + (attrSeen s).getD 4 0) * 16 < msg.length) :
    (∃ m, (ndefSet s msg).1 = SetOut.err m) ∧
    (ndefSet s msg).2.tag.mem = s.tag.mem ∧
    (ndefSet s msg).2.tag.trace = s.tag.trace ++ attrReadEvs s := by
  simp only [ndefSet, getAttr_spec s]
  by_cases hwr : pyBool ((attrSeen s).getD 10 0) = false
  · rw [if_pos hwr]
    exact ⟨⟨_, rfl⟩, rfl, rfl⟩
  · have hcap : ((attrSeen s).getD 3 0 * 256 + (attrSeen s).getD 4 0) * 16 < msg.length := by
      rcases hpol with h | h
      · exact absurd h hwr
      · exact h
    rw [if_neg hwr, if_pos hcap]
    exact ⟨⟨_, rfl⟩, rfl, rfl⟩

/-- C5 (amended): a stored checksum that does not equal the sum of the first
14 attribute bytes is fatal when the NDEF accessor is constructed:
`NDEF.__init__` raises ValueError for every such tag.  (On later re-reads
through the `attr` property the mismatch is only logged; see the
counterexample.) -/
theorem C5_checksum_fatal_at_init (t : TagSt) (hbad : checksumOK (t.mem 0) = false) :
    ndefInit t = .error "checksum error in NDEF attribute block" := by
  have hseen : attrSeen ⟨t, none⟩ = t.mem 0 := rfl
  simp only [ndefInit, getAttr_spec ⟨t, none⟩, hseen]
  rw [if_neg (by simp [hbad])]

/-- A concrete writeable test tag: version 1.0, Nbr 4, Nbw 1, capacity 64
bytes, empty message, valid checksum; all other blocks zero. -/
def demoTag : TagSt :=
  ⟨fun b => if b = 0 then [16, 4, 1, 0, 4, 0, 0, 0, 0, 0, 1, 0, 0, 0, 0, 26]
    else List.replicate 16 0, []⟩

def demoNdef : NDEFSt := ⟨demoTag, none⟩

/-- A concrete read-only tag (writeable byte 0, valid checksum). -/
def roTag : TagSt :=
  ⟨fun b => if b = 0 then [16, 4, 1, 0, 4, 0, 0, 0, 0, 0, 0, 0, 0, 0, 0, 25]
    else List.replicate 16 0, []⟩

/-- A tag whose attribute block has a wrong checksum (bytes 14-15 zero while
the sum of bytes 0-13 is 21) and message length 0. -/
def badTag : TagSt :=
  ⟨fun b => if b = 0 then [16, 4, 1, 0, 4, 0, 0, 0, 0, 0, 1, 0, 0, 0, 0, 0]
    else List.replicate 16 0, []⟩

theorem C2_witness :
    (ndefSet demoNdef [1, 2, 3, 4, 5, 6, 7, 8, 9, 10, 11, 12, 13, 14, 15, 16, 17, 18]).1 = SetOut.ok ∧
      ∃ evs,
        (ndefSet demoNdef [1, 2, 3, 4, 5, 6, 7, 8, 9, 10, 11, 12, 13, 14, 15, 16, 17, 18]).2.tag.trace =
          demoNdef.tag.trace ++ attrReadEvs demoNdef ++
            [.write (attrBegin (attrSeen demoNdef) 18) [0]] ++ evs ++
            [.write (attrEnd (attrSeen demoNdef) 18) [0]] ∧
        evs.length = ((18 + 15) / 16 + ((attrSeen demoNdef).getD 2 0 - 1)) /
          (attrSeen demoNdef).getD 2 0 ∧
        (∀ e ∈ evs, ∃ dd bl, e = .write dd bl ∧ bl.length ≤ (attrSeen demoNdef).getD 2 0) ∧
        (evs.map evBlocks).flatten = List.range' 1 ((18 + 15) / 16) ∧
        (evs.map evData).flatten =
          [1, 2, 3, 4, 5, 6, 7, 8, 9, 10, 11, 12, 13, 14, 15, 16, 17, 18] ++
            List.replicate ((16 - 18 % 16) % 16) 0 :=
  ⟨by decide,
    C2_chunking demoNdef [1, 2, 3, 4, 5, 6, 7, 8, 9, 10, 11, 12, 13, 14, 15, 16, 17, 18]
      (by decide)⟩

theorem C8_witness :
    ((attrSeen demoNdef).length = 16 ∧ (ndefSet demoNdef [7, 8, 9]).1 = SetOut.ok) ∧
      ∃ evs,
        (ndefSet demoNdef [7, 8, 9]).2.tag.trace =
          demoNdef.tag.trace ++ attrReadEvs demoNdef ++
            [.write (attrBegin (attrSeen demoNdef) 3) [0]] ++ evs ++
            [.write (attrEnd (attrSeen demoNdef) 3) [0]] ∧
        (attrBegin (attrSeen demoNdef) 3).getD 9 0 = 15 ∧
        pySlice (attrBegin (attrSeen demoNdef) 3) 11 14 = split3 3 ∧
        checksumOK (attrBegin (attrSeen demoNdef) 3) = true ∧
        (attrEnd (attrSeen demoNdef) 3).getD 9 0 = 0 ∧
        checksumOK (attrEnd (attrSeen demoNdef) 3) = true ∧
        ∀ e ∈ evs, ∃ dd bl, e = Ev.write dd bl ∧ 0 ∉ bl :=
  ⟨⟨by decide, by decide⟩, C8_write_order demoNdef [7, 8, 9] (by decide) (by decide)⟩

/-- Like `cexTag` with Nbw = 14: the smallest transaction that overflows
the frame (13 + 2*14 + 16*14 + 1 = 266 > 255 bytes). -/
def cex2Tag : TagSt :=
  ⟨fun b => if b = 0 then [16, 1, 14, 1, 0, 0, 0, 0, 0, 0, 1, 0, 0, 0, 0, 33]
    else List.replicate 16 0, []⟩

/-- C2 counterexample: for a 224-byte message and Nbw = 14 the claim's
formula demands ceil(ceil(224/16)/14) = 1 data-block write request, but
none is issued: the transport trace stops at the attribute write because
the one 14-block transaction raises ValueError in `chr(len(cmd)+1)`
(tt3.py line 237) before sending. -/
theorem C2_counterexample :
    (ndefSet ⟨cex2Tag, none⟩ (List.replicate 224 2)).1
        = SetOut.err "chr() arg not in range(256)" ∧
      (ndefSet ⟨cex2Tag, none⟩ (List.replicate 224 2)).2.tag.trace =
        [Ev.read [0], Ev.write (attrBegin (attrSeen ⟨cex2Tag, none⟩) 224) [0]] :=
  ⟨by decide, by decide⟩

theorem C4_witness :
    (pyBool ((attrSeen ⟨roTag, none⟩).getD 10 0) = false ∨
        ((attrSeen ⟨roTag, none⟩).getD 3 0 * 256 + (attrSeen ⟨roTag, none⟩).getD 4 0) * 16
          < ([] : Bytes).length) ∧
      (∃ m, (ndefSet ⟨roTag, none⟩ []).1 = SetOut.err m) ∧
      (ndefSet ⟨roTag, none⟩ []).2.tag.mem = roTag.mem ∧
      (ndefSet ⟨roTag, none⟩ []).2.tag.trace = roTag.trace ++ attrReadEvs ⟨roTag, none⟩ :=
  ⟨Or.inl (by decide), C4_policy_rejection ⟨roTag, none⟩ [] (Or.inl (by decide))⟩

/-- C4 counterexample: on a read-only tag with an empty attribute cache the
setter does issue a transport call (the block-0 read of the writeable check)
before failing, so "zero transport calls" is false as stated. -/
theorem C4_counterexample :
    (ndefSet ⟨roTag, none⟩ []).1 = SetOut.err "tag writing disabled" ∧
      (ndefSet ⟨roTag, none⟩ []).2.tag.trace = [Ev.read [0]] := by
  constructor
  · decide
  · decide

theorem C5_witness :
    checksumOK (badTag.mem 0) = false ∧
      ndefInit badTag = .error "checksum error in NDEF attribute block" :=
  ⟨by decide, C5_checksum_fatal_at_init badTag (by decide)⟩

/-- C5 counterexample: a Get whose lazily re-read attribute block fails the
checksum test still returns normally (the mismatch is only logged,
tt3.py line 100), so "every Get fails on a checksum mismatch" is false. -/
theorem C5_counterexample :
    checksumOK (badTag.mem 0) = false ∧
      (ndefGet ⟨badTag, none⟩).1 = GetOut.ok [] := by
  constructor
  · decide
  · decide

/-! ### Emulation dispatcher: callback-log instrumentation and begin/end
marker analysis -/

/-- One recorded callback invocation of a logging service registry. -/
inductive LogEntry where
  | r (code bn : Nat) (rb re : Bool)
  | w (code bn : Nat) (chunk : Bytes) (wb we : Bool)
deriving Repr, DecidableEq

/-- A registry registering the service codes in `regs`, whose callbacks
always succeed (reads return a fixed 16-byte block) and append their
arguments to the log. -/
def logEmu (regs : List Nat) : Emu (List LogEntry) where
  idm := [0, 0, 0, 0, 0, 0, 0, 0]
  pmm := [1, 1, 1, 1, 1, 1, 1, 1]
  sc := [0x12, 0xFC]
  services := fun c =>
    if c ∈ regs then
      some { read := fun bn rb re s => (some (List.replicate 16 7), s ++ [.r c bn rb re]),
             write := fun bn chunk wb we s => (true, s ++ [.w c bn chunk wb we]) }
    else none

/-- Number of block-list entries naming service code `c`. -/
def countOcc (c : Nat) (l : List (Nat × Nat)) : Nat :=
  (l.filter (fun p => p.1 == c)).length

/-- The begin/end markers the spec describes, per entry of the parsed block
list: begin iff no earlier entry has the same service code, end iff no later
one; entries appear in request order with their block numbers. -/
def flagsSpec (done : List (Nat × Nat)) : List (Nat × Nat) → List LogEntry
  | [] => []
  | (c, bn) :: rest =>
    .r c bn (countOcc c done == 0) (countOcc c rest == 0) :: flagsSpec (done ++ [(c, bn)]) rest

/-- Write-side analogue of `flagsSpec`: entry number `i` carries the payload
slice `block_data[i*16:(i+1)*16]`. -/
def flagsSpecW (bd : Bytes) (i : Nat) (done : List (Nat × Nat)) :
    List (Nat × Nat) → List LogEntry
  | [] => []
  | (c, bn) :: rest =>
    .w c bn (pySlice bd (i * 16) ((i + 1) * 16)) (countOcc c done == 0) (countOcc c rest == 0) ::
      flagsSpecW bd (i + 1) (done ++ [(c, bn)]) rest

lemma countOcc_append (c : Nat) (l1 l2 : List (Nat × Nat)) :
    countOcc c (l1 ++ l2) = countOcc c l1 + countOcc c l2 := by
  simp [countOcc]

lemma countOcc_cons_self (c bn : Nat) (l : List (Nat × Nat)) :
    countOcc c ((c, bn) :: l) = countOcc c l + 1 := by
  simp [countOcc]

lemma countOcc_cons_ne (c c' bn : Nat) (l : List (Nat × Nat)) (h : c' ≠ c) :
    countOcc c ((c', bn) :: l) = countOcc c l := by
  simp [countOcc, List.filter_cons, h]

lemma beq_total_counts (d r' : Nat) : ((↑(d + r') : Int) == (↑r' : Int)) = (d == 0) := by
  by_cases h : d = 0
  · subst h; simp
  · rw [beq_eq_false_iff_ne.mpr (by omega : ((d + r' : Nat) : Int) ≠ (↑r' : Int)),
      beq_eq_false_iff_ne.mpr h]

lemma beq_dec_counts (cr : Nat) : ((↑(cr + 1) : Int) - 1 == (0 : Int)) = (cr == 0) := by
  by_cases h : cr = 0
  · subst h; decide
  · rw [beq_eq_false_iff_ne.mpr (by omega : ((cr + 1 : Nat) : Int) - 1 ≠ (0 : Int)),
      beq_eq_false_iff_ne.mpr h]

lemma logEmu_services_mem (regs : List Nat) (c : Nat) (h : c ∈ regs) :
    (logEmu regs).services c =
      some { read := fun bn rb re s => (some (List.replicate 16 7), s ++ [.r c bn rb re]),
             write := fun bn chunk wb we s => (true, s ++ [.w c bn chunk wb we]) } := by
  simp [logEmu, h]

lemma processRead_flags (regs : List Nat) :
    ∀ (rem done : List (Nat × Nat)) (counts : Nat → Int) (i : Nat) (acc : Bytes)
      (s : List LogEntry) (tot : Nat → Nat),
      (∀ p ∈ rem, p.1 ∈ regs) →
      (∀ c, counts c = (countOcc c rem : Int)) →
      (∀ c, tot c = countOcc c (done ++ rem)) →
      acc.length + 16 * rem.length ≤ 4080 →
      ∃ r, processRead (logEmu regs) (rem.map (fun p => (p.1, p.2, tot p.1))) counts i acc s
        = (.resp r, s ++ flagsSpec done rem) := by
  intro rem
  induction rem with
  | nil =>
    intro done counts i acc s tot _ _ _ hacc
    refine ⟨[0, 0, acc.length / 16] ++ acc, ?_⟩
    simp only [List.map_nil, processRead, flagsSpec, List.append_nil]
    rw [if_pos (by omega)]
  | cons p rest ih =>
    intro done counts i acc s tot hreg hcounts htot hacc
    obtain ⟨c, bn⟩ := p
    have hc : c ∈ regs := hreg (c, bn) (by simp)
    simp only [List.map_cons, processRead, logEmu_services_mem regs c hc]
    have hrb : ((tot c : Int) == counts c) = (countOcc c done == 0) := by
      rw [htot c, hcounts c, countOcc_append, countOcc_cons_self]
      exact beq_total_counts (countOcc c done) (countOcc c rest + 1)
    have hre : (counts c - 1 == (0 : Int)) = (countOcc c rest == 0) := by
      rw [hcounts c, countOcc_cons_self]
      exact beq_dec_counts (countOcc c rest)
    simp only [eq_self_iff_true, if_true]
    rw [hrb, hre]
    have hrec := ih (done ++ [(c, bn)])
      (fun c' => if c' = c then counts c - 1 else counts c') (i + 1)
      (acc ++ List.replicate 16 7) (s ++ [.r c bn (countOcc c done == 0) (countOcc c rest == 0)])
      tot
      (fun q hq => hreg q (by simp [hq]))
      (by
        intro c'
        dsimp only
        by_cases h : c' = c
        · subst h
          rw [if_pos rfl, hcounts c', countOcc_cons_self]
          push_cast
          omega
        · rw [if_neg h, hcounts c', countOcc_cons_ne _ _ _ _ (by omega)])
      (by
        intro c'
        rw [htot c']
        congr 1
        simp)
      (by simp at hacc ⊢; omega)
    obtain ⟨r, hr⟩ := hrec
    refine ⟨r, ?_⟩
    rw [hr]
    simp [flagsSpec, List.append_assoc]

lemma processWrite_flags (regs : List Nat) (bd : Bytes) :
    ∀ (rem done : List (Nat × Nat)) (counts : Nat → Int) (i : Nat)
      (s : List LogEntry) (tot : Nat → Nat),
      (∀ p ∈ rem, p.1 ∈ regs) →
      (∀ c, counts c = (countOcc c rem : Int)) →
      (∀ c, tot c = countOcc c (done ++ rem)) →
      processWrite (logEmu regs) bd (rem.map (fun p => (p.1, p.2, tot p.1))) counts i s
        = (.resp [0, 0], s ++ flagsSpecW bd i done rem) := by
  intro rem
  induction rem with
  | nil =>
    intro done counts i s tot _ _ _
    simp only [List.map_nil, processWrite, flagsSpecW, List.append_nil]
  | cons p rest ih =>
    intro done counts i s tot hreg hcounts htot
    obtain ⟨c, bn⟩ := p
    have hc : c ∈ regs := hreg (c, bn) (by simp)
    simp only [List.map_cons, processWrite, logEmu_services_mem regs c hc]
    have hrb : ((tot c : Int) == counts c) = (countOcc c done == 0) := by
      rw [htot c, hcounts c, countOcc_append, countOcc_cons_self]
      exact beq_total_counts (countOcc c done) (countOcc c rest + 1)
    have hre : (counts c - 1 == (0 : Int)) = (countOcc c rest == 0) := by
      rw [hcounts c, countOcc_cons_self]
      exact beq_dec_counts (countOcc c rest)
    simp only [eq_self_iff_true, if_true]
    rw [hrb, hre]
    have hrec := ih (done ++ [(c, bn)])
      (fun c' => if c' = c then counts c - 1 else counts c') (i + 1)
      (s ++ [.w c bn (pySlice bd (i * 16) ((i + 1) * 16))
        (countOcc c done == 0) (countOcc c rest == 0)])
      tot
      (fun q hq => hreg q (by simp [hq]))
      (by
        intro c'
        dsimp only
        by_cases h : c' = c
        · subst h
          rw [if_pos rfl, hcounts c', countOcc_cons_self]
          push_cast
          omega
        · rw [if_neg h, hcounts c', countOcc_cons_ne _ _ _ _ (by omega)])
      (by
        intro c'
        rw [htot c']
        congr 1
        simp)
    rw [hrec]
    simp [flagsSpecW, List.append_assoc]

/-- Log shape of the write loop over the always-accepting logging registry,
with no distinctness assumption on service codes: it ends in the success
status `(0, 0)` and logs one write per entry, entry number `j` (from loop
counter `i`) receiving exactly the payload slice
`block_data[(i+j)*16:(i+j+1)*16]`. -/
lemma processWrite_log (regs : List Nat) (bd : Bytes) :
    ∀ (rem : List (Nat × Nat × Nat)) (counts : Nat → Int) (i : Nat) (s : List LogEntry),
      (∀ p ∈ rem, p.1 ∈ regs) →
      ∃ log, processWrite (logEmu regs) bd rem counts i s = (.resp [0, 0], s ++ log) ∧
        log.length = rem.length ∧
        ∀ j, ∀ hj : j < rem.length, ∃ wb we,
          log[j]? = some (.w (rem.get ⟨j, hj⟩).1 (rem.get ⟨j, hj⟩).2.1
            (pySlice bd ((i + j) * 16) ((i + j + 1) * 16)) wb we) := by
  intro rem
  induction rem with
  | nil =>
    intro counts i s _
    refine ⟨[], ?_, rfl, ?_⟩
    · simp only [processWrite, List.append_nil]
    · intro j hj
      simp at hj
  | cons p rest ih =>
    intro counts i s hreg
    obtain ⟨c, bn, tot⟩ := p
    have hc : c ∈ regs := hreg (c, bn, tot) (by simp)
    obtain ⟨log, hrec, hlenr, hidx⟩ := ih
      (fun c' => if c' = c then counts c - 1 else counts c') (i + 1)
      (s ++ [.w c bn (pySlice bd (i * 16) ((i + 1) * 16))
        ((tot : Int) == counts c) (counts c - 1 == 0)])
      (fun q hq => hreg q (by simp [hq]))
    refine ⟨.w c bn (pySlice bd (i * 16) ((i + 1) * 16))
        ((tot : Int) == counts c) (counts c - 1 == 0) :: log, ?_, by simp [hlenr], ?_⟩
    · simp only [processWrite, logEmu_services_mem regs c hc]
      simp only [eq_self_iff_true, if_true]
      rw [hrec]
      simp [List.append_assoc]
    · intro j hj
      cases j with
      | zero =>
        refine ⟨(tot : Int) == counts c, counts c - 1 == 0, ?_⟩
        simp
      | succ j' =>
        obtain ⟨wb, we, hj'⟩ := hidx j' (by simp at hj ⊢; omega)
        refine ⟨wb, we, ?_⟩
        have e1 : i + 1 + j' = i + (j' + 1) := by omega
        rw [List.getElem?_cons_succ, hj', e1]
        simp [List.get_eq_getElem, List.getElem_cons_succ]

/-- Front-to-back association lookup of the per-service counters. -/
def lookupCnt (l : List (Nat × Nat)) (c : Nat) : Nat :=
  ((l.find? (fun p => p.1 == c)).map Prod.snd).getD 0

lemma parseServiceList_ok (e : Emu σ) :
    ∀ (n : Nat) (cd : Bytes) (svcs : List (Nat × Nat)) (rest : Bytes),
      parseServiceList e n cd = .ok svcs rest →
      (∀ p ∈ svcs, (e.services p.1).isSome ∧ p.2 = 0) ∧
        rest = cd.drop (2 * n) ∧ svcs.length = n := by
  intro n
  induction n with
  | zero =>
    intro cd svcs rest h
    simp only [parseServiceList] at h
    cases h
    exact ⟨by simp, by simp, rfl⟩
  | succ n ih =>
    intro cd svcs rest h
    match cd with
    | [] => simp [parseServiceList] at h
    | [c0] => simp [parseServiceList] at h
    | c0 :: c1 :: cd' =>
      simp only [parseServiceList] at h
      by_cases hs : (e.services (c1 <<< 8 ||| c0)).isSome
      · rw [if_pos hs] at h
        cases hrec : parseServiceList e n cd' with
        | ok svcs' rest' =>
          rw [hrec] at h
          cases h
          obtain ⟨h1, h2, h3⟩ := ih cd' svcs' _ hrec
          refine ⟨?_, ?_, by simp [h3]⟩
          · intro p hp
            rcases List.mem_cons.mp hp with rfl | hp'
            · exact ⟨hs, rfl⟩
            · exact h1 p hp'
          · rw [h2, show 2 * (n + 1) = 2 * n + 1 + 1 by ring]
            simp only [List.drop_succ_cons]
        | raise => rw [hrec] at h; cases h
        | unknown => rw [hrec] at h; cases h
      · rw [if_neg hs] at h
        cases h

lemma lookupCnt_set :
    ∀ (svcs : List (Nat × Nat)) (idx code cnt : Nat),
      svcs[idx]? = some (code, cnt) → ((svcs.map Prod.fst).Nodup) →
      ∀ c, lookupCnt (svcs.set idx (code, cnt + 1)) c
        = lookupCnt svcs c + (if c = code then 1 else 0) := by
  intro svcs
  induction svcs with
  | nil => intro idx code cnt h; simp at h
  | cons p tl ih =>
    intro idx code cnt h hnd c
    match idx with
    | 0 =>
      simp only [List.getElem?_cons_zero, Option.some_inj] at h
      subst h
      simp only [List.set_cons_zero, lookupCnt, List.find?_cons]
      by_cases hc : code == c
      · simp only [hc]
        simp only [beq_iff_eq] at hc
        subst hc
        simp [if_pos rfl]
      · simp only [hc]
        have : ¬ (c = code) := by
          simp only [beq_iff_eq] at hc
          omega
        simp [this]
    | idx + 1 =>
      simp only [List.getElem?_cons_succ] at h
      simp only [List.set_cons_succ, lookupCnt, List.find?_cons]
      have hnd' : ((tl.map Prod.fst).Nodup) := by
        simp only [List.map_cons, List.nodup_cons] at hnd
        exact hnd.2
      by_cases hp : p.1 == c
      · simp only [hp]
        have hcode : code ∈ tl.map Prod.fst := by
          rw [List.mem_map]
          exact ⟨(code, cnt), List.getElem?_mem h, rfl⟩
        have hpc : p.1 ∉ tl.map Prod.fst := by
          simp only [List.map_cons, List.nodup_cons] at hnd
          exact hnd.1
        have : ¬ (c = code) := by
          intro hcc
          simp only [beq_iff_eq] at hp
          rw [← hcc, ← hp] at hcode
          exact hpc hcode
        simp [this]
      · simp only [hp]
        have := ih idx code cnt h hnd' c
        simp only [lookupCnt] at this
        rw [this]

lemma dictOf_nodup (l : List (Nat × Nat)) (h : (l.map Prod.fst).Nodup) (c : Nat) :
    dictOf l c = (l.find? (fun p => p.1 == c)).map Prod.snd := by
  induction l with
  | nil => rfl
  | cons p tl ih =>
    have hnd' : (tl.map Prod.fst).Nodup := by
      simp only [List.map_cons, List.nodup_cons] at h
      exact h.2
    have hpt : p.1 ∉ tl.map Prod.fst := by
      simp only [List.map_cons, List.nodup_cons] at h
      exact h.1
    simp only [dictOf, List.reverse_cons, List.find?_append, List.find?_cons]
    cases hfind : tl.reverse.find? (fun p => p.1 == c) with
    | none =>
      have htl : tl.find? (fun p => p.1 == c) = none := by
        rw [List.find?_eq_none] at hfind ⊢
        intro x hx
        exact hfind x (by simp [hx])
      simp only [Option.none_or]
      by_cases hp : p.1 == c
      · simp [hp]
      · simp only [hp]
        simp [htl]
    | some q =>
      have hq := List.find?_some hfind
      have hqmem : q ∈ tl := by
        have := List.mem_of_find?_eq_some hfind
        simpa using this
      have hp : ¬ (p.1 == c) := by
        intro hpc
        apply hpt
        rw [List.mem_map]
        refine ⟨q, hqmem, ?_⟩
        simp only [beq_iff_eq] at hq hpc
        rw [hq, hpc]
      simp only [hp, Option.or_some]
      have := ih hnd'
      simp only [dictOf, hfind] at this
      rw [← this]

lemma set_getElem?_self {α : Type} :
    ∀ (l : List α) (i : Nat) (a : α), l[i]? = some a → l.set i a = l := by
  intro l
  induction l with
  | nil => intro i a h; simp at h
  | cons x tl ih =>
    intro i a h
    match i with
    | 0 =>
      simp only [List.getElem?_cons_zero, Option.some_inj] at h
      rw [← h]
      rfl
    | i + 1 =>
      simp only [List.getElem?_cons_succ] at h
      simp only [List.set_cons_succ]
      rw [ih i a h]

lemma map_fst_set (svcs : List (Nat × Nat)) (idx code cnt cnt' : Nat)
    (h : svcs[idx]? = some (code, cnt)) :
    (svcs.set idx (code, cnt')).map Prod.fst = svcs.map Prod.fst := by
  rw [List.map_set]
  apply set_getElem?_self
  rw [List.getElem?_map, h]
  rfl

lemma parseBlockList_ok :
    ∀ (n : Nat) (svcs : List (Nat × Nat)) (i : Nat) (cd : Bytes)
      (svcs2 : List (Nat × Nat)) (sbl : List (Nat × Nat)) (rest : Bytes),
      parseBlockList svcs n i cd = .ok svcs2 sbl rest →
      svcs2.map Prod.fst = svcs.map Prod.fst ∧
      sbl.length = n ∧
      (∀ p ∈ sbl, p.1 ∈ svcs.map Prod.fst) ∧
      ((svcs.map Prod.fst).Nodup →
        ∀ c, lookupCnt svcs2 c = lookupCnt svcs c + countOcc c sbl) := by
  intro n
  induction n with
  | zero =>
    intro svcs i cd svcs2 sbl rest h
    simp only [parseBlockList] at h
    cases h
    exact ⟨rfl, rfl, by simp, fun _ c => by simp [countOcc]⟩
  | succ n ih =>
    intro svcs i cd svcs2 sbl rest h
    match cd with
    | [] => simp [parseBlockList] at h
    | e0 :: cd' =>
      simp only [parseBlockList] at h
      cases hidx : svcs[e0 &&& 0x0F]? with
      | none => rw [hidx] at h; cases h
      | some pc =>
        obtain ⟨code, cnt⟩ := pc
        rw [hidx] at h
        dsimp only at h
        have hcodemem : code ∈ svcs.map Prod.fst := by
          rw [List.mem_map]
          exact ⟨(code, cnt), List.getElem?_mem hidx, rfl⟩
        by_cases h128 : 128 ≤ e0
        · rw [if_pos h128] at h
          match cd' with
          | [] => cases h
          | b1 :: cd'' =>
            dsimp only at h
            cases hrec : parseBlockList (svcs.set (e0 &&& 0x0F) (code, cnt + 1)) n (i + 1) cd'' with
            | raise => rw [hrec] at h; cases h
            | errA3 st => rw [hrec] at h; cases h
            | ok svcsF sbl' rest' =>
              rw [hrec] at h
              cases h
              obtain ⟨f1, f2, f3, f4⟩ := ih _ _ _ _ _ _ hrec
              have hms := map_fst_set svcs (e0 &&& 0x0F) code cnt (cnt + 1) hidx
              refine ⟨by rw [f1, hms], by simp [f2], ?_, ?_⟩
              · intro p hp
                rcases List.mem_cons.mp hp with rfl | hp'
                · exact hcodemem
                · have := f3 p hp'
                  rwa [hms] at this
              · intro hnd c
                have hnd' : ((svcs.set (e0 &&& 0x0F) (code, cnt + 1)).map Prod.fst).Nodup := by
                  rwa [hms]
                have h1 := f4 hnd' c
                have h2 := lookupCnt_set svcs (e0 &&& 0x0F) code cnt hidx hnd c
                rw [h1, h2]
                by_cases hc : c = code
                · subst hc
                  rw [countOcc_cons_self]
                  simp
                  omega
                · rw [countOcc_cons_ne _ _ _ _ (by omega)]
                  simp [hc]
        · rw [if_neg h128] at h
          match cd' with
          | [] => cases h
          | [b1] => cases h
          | b1 :: b2 :: cd'' =>
            dsimp only at h
            cases hrec : parseBlockList (svcs.set (e0 &&& 0x0F) (code, cnt + 1)) n (i + 1) cd'' with
            | raise => rw [hrec] at h; cases h
            | errA3 st => rw [hrec] at h; cases h
            | ok svcsF sbl' rest' =>
              rw [hrec] at h
              cases h
              obtain ⟨f1, f2, f3, f4⟩ := ih _ _ _ _ _ _ hrec
              have hms := map_fst_set svcs (e0 &&& 0x0F) code cnt (cnt + 1) hidx
              refine ⟨by rw [f1, hms], by simp [f2], ?_, ?_⟩
              · intro p hp
                rcases List.mem_cons.mp hp with rfl | hp'
                · exact hcodemem
                · have := f3 p hp'
                  rwa [hms] at this
              · intro hnd c
                have hnd' : ((svcs.set (e0 &&& 0x0F) (code, cnt + 1)).map Prod.fst).Nodup := by
                  rwa [hms]
                have h1 := f4 hnd' c
                have h2 := lookupCnt_set svcs (e0 &&& 0x0F) code cnt hidx hnd c
                rw [h1, h2]
                by_cases hc : c = code
                · subst hc
                  rw [countOcc_cons_self]
                  simp
                  omega
                · rw [countOcc_cons_ne _ _ _ _ (by omega)]
                  simp [hc]

lemma lookupCnt_zero (svcs : List (Nat × Nat)) (h : ∀ p ∈ svcs, p.2 = 0) (c : Nat) :
    lookupCnt svcs c = 0 := by
  unfold lookupCnt
  cases hf : svcs.find? (fun p => p.1 == c) with
  | none => rfl
  | some q =>
    have hq : q ∈ svcs := List.mem_of_find?_eq_some hf
    simp [h q hq]

/-- C3 (amended): in both without-encryption handlers, provided the service
codes of the parsed service list are pairwise distinct, the begin flag passed
to each callback is true iff the entry is the first block-list entry for its
service code and the end flag is true iff it is the last, callbacks running
in request order with the requested block numbers (`flagsSpec` /
`flagsSpecW` spell this out); shown for the always-succeeding logging
registry, with at most 255 block-list entries on the read side (more would
make the source's response-assembly bytearray raise). -/
theorem C3_begin_end_markers (regs : List Nat) (n : Nat) (cd1 : Bytes)
    (svcs : List (Nat × Nat)) (m : Nat) (cd3 : Bytes)
    (svcs2 sbl : List (Nat × Nat)) (rest : Bytes)
    (h1 : parseServiceList (logEmu regs) n cd1 = .ok svcs (m :: cd3))
    (hnodup : (svcs.map Prod.fst).Nodup)
    (h2 : parseBlockList svcs m 0 cd3 = .ok svcs2 sbl rest)
    (hm : sbl.length ≤ 255) :
    (∃ r, read_without_encryption (logEmu regs) (n :: cd1) [] = (.resp r, flagsSpec [] sbl)) ∧
    (rest.length % 16 = 0 →
      write_without_encryption (logEmu regs) (n :: cd1) []
        = (.resp [0, 0], flagsSpecW rest 0 [] sbl)) := by
  obtain ⟨hsv, hrest, hlen⟩ := parseServiceList_ok (logEmu regs) n cd1 svcs _ h1
  obtain ⟨f1, f2, f3, f4⟩ := parseBlockList_ok m svcs 0 cd3 svcs2 sbl rest h2
  have hnodup2 : (svcs2.map Prod.fst).Nodup := by rw [f1]; exact hnodup
  have htot : ∀ c, (dictOf svcs2 c).getD 0 = countOcc c sbl := by
    intro c
    rw [dictOf_nodup svcs2 hnodup2 c]
    show lookupCnt svcs2 c = _
    rw [f4 hnodup c, lookupCnt_zero svcs (fun p hp => (hsv p hp).2) c]
    omega
  have hreg : ∀ p ∈ sbl, p.1 ∈ regs := by
    intro p hp
    have hmem := f3 p hp
    rw [List.mem_map] at hmem
    obtain ⟨q, hq, hq2⟩ := hmem
    have hsome := (hsv q hq).1
    rw [← hq2]
    by_contra hnot
    simp [logEmu, hnot] at hsome
  constructor
  · obtain ⟨r, hr⟩ := processRead_flags regs sbl []
      (fun c => ((dictOf svcs2 c).getD 0 : Int)) 0 [] []
      (fun c => (dictOf svcs2 c).getD 0) hreg
      (fun c => by dsimp only; rw [htot c])
      (fun c => by dsimp only; rw [htot c]; simp)
      (by simp only [List.length_nil]; omega)
    refine ⟨r, ?_⟩
    simp only [read_without_encryption, h1, h2]
    exact hr
  · intro h16
    have hw := processWrite_flags regs rest sbl []
      (fun c => ((dictOf svcs2 c).getD 0 : Int)) 0 []
      (fun c => (dictOf svcs2 c).getD 0) hreg
      (fun c => by dsimp only; rw [htot c])
      (fun c => by dsimp only; rw [htot c]; simp)
    simp only [write_without_encryption, h1, h2]
    rw [if_neg (by simp [h16])]
    exact hw

theorem C3_witness :
    (parseServiceList (logEmu [11]) 1 [11, 0, 3, 128, 1, 128, 2, 128, 3]
        = .ok [(11, 0)] [3, 128, 1, 128, 2, 128, 3] ∧
      parseBlockList [(11, 0)] 3 0 [128, 1, 128, 2, 128, 3]
        = .ok [(11, 3)] [(11, 1), (11, 2), (11, 3)] [] ∧
      flagsSpec [] [(11, 1), (11, 2), (11, 3)]
        = [.r 11 1 true false, .r 11 2 false false, .r 11 3 false true]) ∧
    ((∃ r, read_without_encryption (logEmu [11]) (1 :: [11, 0, 3, 128, 1, 128, 2, 128, 3]) []
        = (.resp r, flagsSpec [] [(11, 1), (11, 2), (11, 3)])) ∧
      (([] : Bytes).length % 16 = 0 →
        write_without_encryption (logEmu [11]) (1 :: [11, 0, 3, 128, 1, 128, 2, 128, 3]) []
          = (.resp [0, 0], flagsSpecW [] 0 [] [(11, 1), (11, 2), (11, 3)]))) :=
  ⟨⟨by decide, by decide, by decide⟩,
    C3_begin_end_markers [11] 1 [11, 0, 3, 128, 1, 128, 2, 128, 3] [(11, 0)] 3
      [128, 1, 128, 2, 128, 3] [(11, 3)] [(11, 1), (11, 2), (11, 3)] []
      (by decide) (by decide) (by decide) (by decide)⟩

/-- C3 counterexample: with the same service code 11 listed twice in the
service list, a read referencing both slots yields begin/end markers that
contradict the claim: the first callback (not the last entry for service 11)
gets end = true, and the second callback, though it is the last entry for
service 11, gets end = false (Python's `dict(service_list)` collapses the
duplicate keys, keeping only the last counter). -/
theorem C3_counterexample :
    (read_without_encryption (logEmu [11]) [2, 11, 0, 11, 0, 2, 128, 5, 129, 6] []).2
      = [LogEntry.r 11 5 true true, LogEntry.r 11 6 false false] := by decide

/-- C10: the write handler checks only that the payload is a multiple of 16
bytes, never that it covers the block list: with a valid frame carrying a
block list of `sbl.length` entries but only `mm * 16` payload bytes,
`mm < sbl.length`, no error status is returned (the all-accepting registry
yields the success status `(0, 0)`), one write callback runs per entry, and
the callback for entry `j` receives the clamped slice
`block_data[j*16:(j+1)*16]`, which is empty for every `j ≥ mm`. -/
theorem C10_short_write_payload (regs : List Nat) (n : Nat) (cd1 : Bytes)
    (svcs : List (Nat × Nat)) (m : Nat) (cd3 : Bytes)
    (svcs2 sbl : List (Nat × Nat)) (bd : Bytes) (mm : Nat)
    (h1 : parseServiceList (logEmu regs) n cd1 = .ok svcs (m :: cd3))
    (h2 : parseBlockList svcs m 0 cd3 = .ok svcs2 sbl bd)
    (hbd : bd.length = 16 * mm) (hshort : mm < sbl.length) :
    ∃ log, write_without_encryption (logEmu regs) (n :: cd1) [] = (.resp [0, 0], log) ∧
      log.length = sbl.length ∧
      (∀ j, ∀ hj : j < sbl.length, ∃ wb we,
        log[j]? = some (.w (sbl.get ⟨j, hj⟩).1 (sbl.get ⟨j, hj⟩).2
          (pySlice bd (j * 16) ((j + 1) * 16)) wb we)) ∧
      (∀ j, mm ≤ j → pySlice bd (j * 16) ((j + 1) * 16) = []) := by
  obtain ⟨hsv, hrest, hlen⟩ := parseServiceList_ok (logEmu regs) n cd1 svcs _ h1
  obtain ⟨f1, f2, f3, f4⟩ := parseBlockList_ok m svcs 0 cd3 svcs2 sbl bd h2
  have hreg : ∀ p ∈ sbl, p.1 ∈ regs := by
    intro p hp
    have hmem := f3 p hp
    rw [List.mem_map] at hmem
    obtain ⟨q, hq, hq2⟩ := hmem
    have hsome := (hsv q hq).1
    rw [← hq2]
    by_contra hnot
    simp [logEmu, hnot] at hsome
  have hreg2 : ∀ p ∈ sbl.map (fun p => (p.1, p.2, (dictOf svcs2 p.1).getD 0)),
      p.1 ∈ regs := by
    intro p hp
    rw [List.mem_map] at hp
    obtain ⟨q, hq, hq2⟩ := hp
    rw [← hq2]
    exact hreg q hq
  obtain ⟨log, hw, hlog, hidx⟩ := processWrite_log regs bd
    (sbl.map (fun p => (p.1, p.2, (dictOf svcs2 p.1).getD 0)))
    (fun c => ((dictOf svcs2 c).getD 0 : Int)) 0 [] hreg2
  refine ⟨log, ?_, ?_, ?_, ?_⟩
  · simp only [write_without_encryption, h1, h2]
    rw [if_neg (by simp [hbd, Nat.mul_mod_right])]
    simpa using hw
  · rw [hlog]
    simp
  · intro j hj
    have hjm : j < (sbl.map (fun p => (p.1, p.2, (dictOf svcs2 p.1).getD 0))).length := by
      simpa using hj
    obtain ⟨wb, we, hj'⟩ := hidx j hjm
    simp only [Nat.zero_add] at hj'
    have hgm : (sbl.map (fun p => (p.1, p.2, (dictOf svcs2 p.1).getD 0))).get ⟨j, hjm⟩
        = ((sbl.get ⟨j, hj⟩).1, (sbl.get ⟨j, hj⟩).2,
            (dictOf svcs2 (sbl.get ⟨j, hj⟩).1).getD 0) := by
      simp [List.get_eq_getElem, List.getElem_map]
    rw [hgm] at hj'
    exact ⟨wb, we, hj'⟩
  · intro j hj
    simp only [pySlice]
    apply List.drop_eq_nil_of_le
    simp only [List.length_take, hbd]
    omega

theorem C10_witness :
    (parseServiceList (logEmu [9]) 1
          ([9, 0, 3, 128, 1, 128, 2, 128, 3] ++ List.replicate 16 5)
        = .ok [(9, 0)] (3 :: ([128, 1, 128, 2, 128, 3] ++ List.replicate 16 5)) ∧
      parseBlockList [(9, 0)] 3 0 ([128, 1, 128, 2, 128, 3] ++ List.replicate 16 5)
        = .ok [(9, 3)] [(9, 1), (9, 2), (9, 3)] (List.replicate 16 5) ∧
      (List.replicate 16 5 : Bytes).length = 16 * 1 ∧
      1 < ([(9, 1), (9, 2), (9, 3)] : List (Nat × Nat)).length) ∧
    (∃ log, write_without_encryption (logEmu [9])
        (1 :: ([9, 0, 3, 128, 1, 128, 2, 128, 3] ++ List.replicate 16 5)) []
        = (.resp [0, 0], log) ∧
      log.length = ([(9, 1), (9, 2), (9, 3)] : List (Nat × Nat)).length ∧
      (∀ j, ∀ hj : j < ([(9, 1), (9, 2), (9, 3)] : List (Nat × Nat)).length, ∃ wb we,
        log[j]? = some (.w (([(9, 1), (9, 2), (9, 3)] : List (Nat × Nat)).get ⟨j, hj⟩).1
          (([(9, 1), (9, 2), (9, 3)] : List (Nat × Nat)).get ⟨j, hj⟩).2
          (pySlice (List.replicate 16 5) (j * 16) ((j + 1) * 16)) wb we)) ∧
      (∀ j, 1 ≤ j → pySlice (List.replicate 16 5) (j * 16) ((j + 1) * 16) = [])) :=
  ⟨⟨by decide, by decide, by decide, by decide⟩,
    C10_short_write_payload [9] 1 ([9, 0, 3, 128, 1, 128, 2, 128, 3] ++ List.replicate 16 5)
      [(9, 0)] 3 ([128, 1, 128, 2, 128, 3] ++ List.replicate 16 5)
      [(9, 3)] [(9, 1), (9, 2), (9, 3)] (List.replicate 16 5) 1
      (by decide) (by decide) (by decide) (by decide)⟩

/-! ### C6: dispatcher totality on frames with intact list structure -/

/-- Each of the `n` declared block-list entries is fully present (2 or 3
bytes according to its first byte); an empty tail with entries still
declared is fine, since the handler's caught IndexError answers 0xA3
there. -/
def wfEntries : Nat → Bytes → Bool
  | 0, _ => true
  | _ + 1, [] => true
  | n + 1, e0 :: rest =>
    if 128 ≤ e0 then
      match rest with
      | [] => false
      | _ :: r => wfEntries n r
    else
      match rest with
      | _ :: _ :: r => wfEntries n r
      | _ => false

/-- The read/write-without-encryption payload is structurally intact: the
service-count byte is present with its `2n` service bytes, the block-count
byte follows, the declared block count fits one response (at most 15
blocks, keeping the assembled response frame length within one byte), and
every declared block-list entry is complete. -/
def wfRW (cd : Bytes) : Bool :=
  match cd with
  | [] => false
  | n :: rest =>
    2 * n ≤ rest.length &&
      (match rest.drop (2 * n) with
       | [] => false
       | m :: rest2 => m ≤ 15 && wfEntries m rest2)

lemma parseServiceList_no_raise (e : Emu σ) :
    ∀ (n : Nat) (cd : Bytes), 2 * n ≤ cd.length →
      parseServiceList e n cd ≠ .raise := by
  intro n
  induction n with
  | zero => intro cd _ h; simp [parseServiceList] at h
  | succ n ih =>
    intro cd hlen h
    match cd with
    | [] => simp at hlen
    | [c0] => simp at hlen; omega
    | c0 :: c1 :: cd' =>
      simp only [parseServiceList] at h
      by_cases hs : (e.services (c1 <<< 8 ||| c0)).isSome
      · rw [if_pos hs] at h
        cases hrec : parseServiceList e n cd' with
        | raise => exact ih cd' (by simp at hlen ⊢; omega) hrec
        | unknown => rw [hrec] at h; cases h
        | ok svcs rest => rw [hrec] at h; cases h
      · rw [if_neg hs] at h
        cases h

lemma parseBlockList_no_raise :
    ∀ (n : Nat) (svcs : List (Nat × Nat)) (i : Nat) (cd : Bytes),
      wfEntries n cd = true → parseBlockList svcs n i cd ≠ .raise := by
  intro n
  induction n with
  | zero => intro svcs i cd _ h; simp [parseBlockList] at h
  | succ n ih =>
    intro svcs i cd hwf h
    match cd with
    | [] => simp [parseBlockList] at h
    | e0 :: cd' =>
      simp only [parseBlockList] at h
      cases hidx : svcs[e0 &&& 0x0F]? with
      | none => rw [hidx] at h; cases h
      | some pc =>
        obtain ⟨code, cnt⟩ := pc
        rw [hidx] at h
        dsimp only at h
        simp only [wfEntries] at hwf
        by_cases h128 : 128 ≤ e0
        · rw [if_pos h128] at h
          rw [if_pos h128] at hwf
          cases cd' with
          | nil => simp at hwf
          | cons b1 cd'' =>
            dsimp only at h hwf
            cases hrec : parseBlockList (svcs.set (e0 &&& 0x0F) (code, cnt + 1)) n (i + 1) cd'' with
            | raise => exact ih _ (i + 1) cd'' hwf hrec
            | errA3 st => rw [hrec] at h; cases h
            | ok svcsF sbl rest => rw [hrec] at h; cases h
        · rw [if_neg h128] at h
          rw [if_neg h128] at hwf
          cases cd' with
          | nil => simp at hwf
          | cons b1 cd3' =>
            cases cd3' with
            | nil => simp at hwf
            | cons b2 cd'' =>
              dsimp only at h hwf
              cases hrec : parseBlockList (svcs.set (e0 &&& 0x0F) (code, cnt + 1)) n (i + 1) cd'' with
              | raise => exact ih _ (i + 1) cd'' hwf hrec
              | errA3 st => rw [hrec] at h; cases h
              | ok svcsF sbl rest => rw [hrec] at h; cases h

lemma processRead_safe (e : Emu σ)
    (hcb : ∀ c svc, e.services c = some svc →
      ∀ bn rb re st d st', svc.read bn rb re st = (some d, st') → d.length = 16) :
    ∀ (rem : List (Nat × Nat × Nat)) (counts : Nat → Int) (i : Nat) (acc : Bytes) (s : σ),
      (∀ p ∈ rem, (e.services p.1).isSome) →
      acc.length + 16 * rem.length ≤ 4080 →
      ∃ r s', processRead e rem counts i acc s = (.resp r, s') ∧
        r.length ≤ 3 + acc.length + 16 * rem.length := by
  intro rem
  induction rem with
  | nil =>
    intro counts i acc s _ hacc
    refine ⟨[0, 0, acc.length / 16] ++ acc, s, ?_, by simp; omega⟩
    simp only [processRead]
    rw [if_pos (by omega)]
  | cons p rest ih =>
    intro counts i acc s hreg hacc
    obtain ⟨c, bn, tot⟩ := p
    cases hsvc : e.services c with
    | none =>
      have := hreg (c, bn, tot) (by simp)
      rw [hsvc] at this
      simp at this
    | some svc =>
      simp only [processRead, hsvc, eq_self_iff_true, if_true]
      cases hread : svc.read bn ((tot : Int) == counts c) (counts c - 1 == 0) s with
      | mk res s' =>
        cases res with
        | none =>
          refine ⟨[1 <<< (i % 8), 0xA2, 0], s', rfl, by simp; omega⟩
        | some d =>
          have hd : d.length = 16 := hcb c svc hsvc bn _ _ s d s' hread
          obtain ⟨r, s2, hr, hlen⟩ := ih (fun c' => if c' = c then counts c - 1 else counts c')
            (i + 1) (acc ++ d) s'
            (fun q hq => hreg q (by simp [hq]))
            (by simp [hd] at hacc ⊢; omega)
          exact ⟨r, s2, hr, by simp [hd] at hlen ⊢; omega⟩

lemma processWrite_safe (e : Emu σ) (bd : Bytes) :
    ∀ (rem : List (Nat × Nat × Nat)) (counts : Nat → Int) (i : Nat) (s : σ),
      (∀ p ∈ rem, (e.services p.1).isSome) →
      ∃ r s', processWrite e bd rem counts i s = (.resp r, s') ∧ r.length ≤ 3 := by
  intro rem
  induction rem with
  | nil =>
    intro counts i s _
    exact ⟨[0, 0], s, rfl, by simp⟩
  | cons p rest ih =>
    intro counts i s hreg
    obtain ⟨c, bn, tot⟩ := p
    cases hsvc : e.services c with
    | none =>
      have := hreg (c, bn, tot) (by simp)
      rw [hsvc] at this
      simp at this
    | some svc =>
      simp only [processWrite, hsvc, eq_self_iff_true, if_true]
      cases hwrite : svc.write bn (pySlice bd (i * 16) ((i + 1) * 16))
          ((tot : Int) == counts c) (counts c - 1 == 0) s with
      | mk res s' =>
        cases res with
        | false =>
          refine ⟨[1 <<< (i % 8), 0xA2, 0], s', rfl, by simp⟩
        | true =>
          obtain ⟨r, s2, hr, hlen⟩ := ih (fun c' => if c' = c then counts c - 1 else counts c')
            (i + 1) s' (fun q hq => hreg q (by simp [hq]))
          exact ⟨r, s2, hr, hlen⟩

lemma parseBlockList_errA3_len :
    ∀ (n : Nat) (svcs : List (Nat × Nat)) (i : Nat) (cd : Bytes) (st : Bytes),
      parseBlockList svcs n i cd = .errA3 st → st.length = 2 := by
  intro n
  induction n with
  | zero => intro svcs i cd st h; simp [parseBlockList] at h
  | succ n ih =>
    intro svcs i cd st h
    match cd with
    | [] =>
      simp only [parseBlockList] at h
      cases h
      rfl
    | e0 :: cd' =>
      simp only [parseBlockList] at h
      cases hidx : svcs[e0 &&& 0x0F]? with
      | none =>
        rw [hidx] at h
        dsimp only at h
        cases h
        rfl
      | some pc =>
        obtain ⟨code, cnt⟩ := pc
        rw [hidx] at h
        dsimp only at h
        by_cases h128 : 128 ≤ e0
        · rw [if_pos h128] at h
          cases cd' with
          | nil => cases h
          | cons b1 cd'' =>
            dsimp only at h
            cases hrec : parseBlockList (svcs.set (e0 &&& 0x0F) (code, cnt + 1)) n (i + 1) cd'' with
            | raise => rw [hrec] at h; cases h
            | errA3 st2 =>
              rw [hrec] at h
              cases h
              exact ih _ (i + 1) cd'' st hrec
            | ok a b cc => rw [hrec] at h; cases h
        · rw [if_neg h128] at h
          cases cd' with
          | nil => cases h
          | cons b1 cd3' =>
            cases cd3' with
            | nil => cases h
            | cons b2 cd'' =>
              dsimp only at h
              cases hrec : parseBlockList (svcs.set (e0 &&& 0x0F) (code, cnt + 1)) n (i + 1) cd'' with
              | raise => rw [hrec] at h; cases h
              | errA3 st2 =>
                rw [hrec] at h
                cases h
                exact ih _ (i + 1) cd'' st hrec
              | ok a b cc => rw [hrec] at h; cases h

lemma read_we_safe (e : Emu σ) (cd : Bytes) (s : σ)
    (hwf : wfRW cd = true)
    (hcb : ∀ c svc, e.services c = some svc →
      ∀ bn rb re st d st', svc.read bn rb re st = (some d, st') → d.length = 16) :
    ∃ r s', read_without_encryption e cd s = (.resp r, s') ∧ r.length ≤ 243 := by
  match cd with
  | [] => simp [wfRW] at hwf
  | n :: rest =>
    simp only [wfRW, Bool.and_eq_true, decide_eq_true_eq] at hwf
    obtain ⟨h2n, hrest⟩ := hwf
    simp only [read_without_encryption]
    cases hsl : parseServiceList e n rest with
    | raise => exact absurd hsl (parseServiceList_no_raise e n rest h2n)
    | unknown => exact ⟨[255, 0xA1], s, rfl, by simp⟩
    | ok svcs cd2 =>
      obtain ⟨hsv, hcd2, hlen⟩ := parseServiceList_ok e n rest svcs cd2 hsl
      rw [← hcd2] at hrest
      cases cd2 with
      | nil => simp at hrest
      | cons m rest2 =>
        dsimp only at hrest ⊢
        simp only [Bool.and_eq_true, decide_eq_true_eq] at hrest
        obtain ⟨hm15, hwfe⟩ := hrest
        cases hbl : parseBlockList svcs m 0 rest2 with
        | raise => exact absurd hbl (parseBlockList_no_raise m svcs 0 rest2 hwfe)
        | errA3 st =>
          refine ⟨st, s, ?_, ?_⟩
          · rfl
          · rw [parseBlockList_errA3_len m svcs 0 rest2 st hbl]
            omega

        | ok svcs2 sbl bd =>
          obtain ⟨f1, f2, f3, f4⟩ := parseBlockList_ok m svcs 0 rest2 svcs2 sbl bd hbl
          have hreg : ∀ p ∈ sbl.map (fun p => (p.1, p.2, ((dictOf svcs2 p.1).getD 0))),
              (e.services p.1).isSome := by
            intro p hp
            rw [List.mem_map] at hp
            obtain ⟨q, hq, hq2⟩ := hp
            have := f3 q hq
            rw [List.mem_map] at this
            obtain ⟨q2, hq2', hq2''⟩ := this
            have := (hsv q2 hq2').1
            rw [← hq2]
            simpa [← hq2''] using this
          obtain ⟨r, s', hr, hrlen⟩ := processRead_safe e hcb
            (sbl.map (fun p => (p.1, p.2, ((dictOf svcs2 p.1).getD 0))))
            (fun c => ((dictOf svcs2 c).getD 0 : Int)) 0 [] s hreg
            (by simp [f2]; omega)
          refine ⟨r, s', ?_, ?_⟩
          · exact hr
          · simp only [List.length_map, List.length_nil, f2] at hrlen
            omega

lemma write_we_safe (e : Emu σ) (cd : Bytes) (s : σ)
    (hwf : wfRW cd = true) :
    ∃ r s', write_without_encryption e cd s = (.resp r, s') ∧ r.length ≤ 3 := by
  match cd with
  | [] => simp [wfRW] at hwf
  | n :: rest =>
    simp only [wfRW, Bool.and_eq_true, decide_eq_true_eq] at hwf
    obtain ⟨h2n, hrest⟩ := hwf
    simp only [write_without_encryption]
    cases hsl : parseServiceList e n rest with
    | raise => exact absurd hsl (parseServiceList_no_raise e n rest h2n)
    | unknown => exact ⟨[255, 0xA1], s, rfl, by simp⟩
    | ok svcs cd2 =>
      obtain ⟨hsv, hcd2, hlen⟩ := parseServiceList_ok e n rest svcs cd2 hsl
      rw [← hcd2] at hrest
      cases cd2 with
      | nil => simp at hrest
      | cons m rest2 =>
        dsimp only at hrest ⊢
        simp only [Bool.and_eq_true, decide_eq_true_eq] at hrest
        obtain ⟨hm15, hwfe⟩ := hrest
        cases hbl : parseBlockList svcs m 0 rest2 with
        | raise => exact absurd hbl (parseBlockList_no_raise m svcs 0 rest2 hwfe)
        | errA3 st =>
          refine ⟨st, s, ?_, ?_⟩
          · rfl
          · rw [parseBlockList_errA3_len m svcs 0 rest2 st hbl]
            omega
        | ok svcs2 sbl bd =>
          dsimp only
          obtain ⟨f1, f2, f3, f4⟩ := parseBlockList_ok m svcs 0 rest2 svcs2 sbl bd hbl
          by_cases h16 : (bd.length % 16 != 0) = true
          · rw [if_pos h16]
            exact ⟨[255, 0xA2], s, rfl, by simp⟩
          · rw [if_neg h16]
            have hreg : ∀ p ∈ sbl.map (fun p => (p.1, p.2, ((dictOf svcs2 p.1).getD 0))),
                (e.services p.1).isSome := by
              intro p hp
              rw [List.mem_map] at hp
              obtain ⟨q, hq, hq2⟩ := hp
              have := f3 q hq
              rw [List.mem_map] at this
              obtain ⟨q2, hq2', hq2''⟩ := this
              have := (hsv q2 hq2').1
              rw [← hq2]
              simpa [← hq2''] using this
            obtain ⟨r, s', hr, hrlen⟩ := processWrite_safe e bd
              (sbl.map (fun p => (p.1, p.2, ((dictOf svcs2 p.1).getD 0))))
              (fun c => ((dictOf svcs2 c).getD 0 : Int)) 0 s hreg
            exact ⟨r, s', hr, hrlen⟩

lemma list_len2 (l : Bytes) (h : l.length = 2) : ∃ a b, l = [a, b] := by
  cases l with
  | nil => simp at h
  | cons a t =>
    cases t with
    | nil => simp at h
    | cons b u =>
      cases u with
      | nil => exact ⟨a, b, rfl⟩
      | cons c v => simp at h

lemma logEmu_read_16 (regs : List Nat) :
    ∀ c svc, (logEmu regs).services c = some svc →
      ∀ bn rb re st d st', svc.read bn rb re st = (some d, st') → d.length = 16 := by
  intro c svc hsvc bn rb re st d st' hread
  simp only [logEmu] at hsvc
  by_cases hc : c ∈ regs
  · rw [if_pos hc] at hsvc
    cases hsvc
    simp only at hread
    cases hread
    simp
  · rw [if_neg hc] at hsvc
    cases hsvc

lemma mkFrame_resp (lenByte code : Nat) (idm payload : Bytes) (h : lenByte ≤ 255) :
    mkFrame lenByte code idm payload = .resp ([lenByte, code] ++ idm ++ payload) := by
  rw [mkFrame, if_pos h]

lemma afterPolling_safe (e : Emu σ) (cmd : Bytes) (s : σ) (rsp0 : Option Bytes)
    (hsc : e.sc.length = 2)
    (h2 : 2 ≤ cmd.length)
    (hrw : (cmd.getD 1 0 = 6 ∨ cmd.getD 1 0 = 8) → (cmd.drop 2).take 8 = e.idm →
      wfRW (cmd.drop 10) = true)
    (hcb : ∀ c svc, e.services c = some svc →
      ∀ bn rb re st d st', svc.read bn rb re st = (some d, st') → d.length = 16) :
    (afterPolling e cmd s rsp0).1 = .noResp ∨
      ∃ r, (afterPolling e cmd s rsp0).1 = .resp r := by
  cases hc1 : cmd[1]? with
  | none =>
    rw [List.getElem?_eq_none_iff] at hc1
    omega
  | some c1 =>
    have hg : cmd.getD 1 0 = c1 := by
      rw [List.getD_eq_getElem?_getD, hc1]
      rfl
    simp only [afterPolling, hc1]
    by_cases h4 : (c1 == 4 && ((cmd.drop 2).take 8 == e.idm)) = true
    · rw [if_pos h4]
      exact Or.inr ⟨_, mkFrame_resp (10 + 1) 5 e.idm [0] (by omega)⟩
    · rw [if_neg h4]
      by_cases h6 : (c1 == 6 && ((cmd.drop 2).take 8 == e.idm)) = true
      · rw [if_pos h6]
        simp only [Bool.and_eq_true, beq_iff_eq] at h6
        obtain ⟨hc6, hidmok⟩ := h6
        obtain ⟨r, s', hr, hrl⟩ := read_we_safe e (cmd.drop 10) s
          (hrw (Or.inl (hg.trans hc6)) hidmok) hcb
        rw [hr]
        exact Or.inr ⟨_, mkFrame_resp (10 + r.length) 7 e.idm r (by omega)⟩
      · rw [if_neg h6]
        by_cases h8 : (c1 == 8 && ((cmd.drop 2).take 8 == e.idm)) = true
        · rw [if_pos h8]
          simp only [Bool.and_eq_true, beq_iff_eq] at h8
          obtain ⟨hc8, hidmok⟩ := h8
          obtain ⟨r, s', hr, hrl⟩ := write_we_safe e (cmd.drop 10) s
            (hrw (Or.inr (hg.trans hc8)) hidmok)
          rw [hr]
          exact Or.inr ⟨_, mkFrame_resp (10 + r.length) 9 e.idm r (by omega)⟩
        · rw [if_neg h8]
          by_cases h12 : (c1 == 12 && ((cmd.drop 2).take 8 == e.idm)) = true
          · rw [if_pos h12]
            exact Or.inr ⟨_, mkFrame_resp (10 + (1 + e.sc.length)) 13 e.idm
              ([1] ++ e.sc) (by omega)⟩
          · rw [if_neg h12]
            cases rsp0 with
            | none => exact Or.inl rfl
            | some r => exact Or.inr ⟨r, rfl⟩

/-- C6 (amended): on an inbound frame of at least two bytes whose length
byte matches its actual length, the dispatcher raises no exception provided
the read/write payload of an IDm-addressed read or write command is
structurally intact (`wfRW`: the declared service bytes are all present,
the declared block count is at most 15 so the assembled response's length
byte fits in one byte, and every declared block-list entry is complete) and
every read callback returns 16 bytes; it then emits exactly one response
frame or none. -/
theorem C6_dispatcher_no_raise (e : Emu σ) (cmd : Bytes) (s : σ)
    (hidm : e.idm.length = 8) (hpmm : e.pmm.length = 8) (hsc : e.sc.length = 2)
    (hlb : cmd.getD 0 0 = cmd.length)
    (h2 : 2 ≤ cmd.length)
    (hrw : (cmd.getD 1 0 = 6 ∨ cmd.getD 1 0 = 8) → (cmd.drop 2).take 8 = e.idm →
      wfRW (cmd.drop 10) = true)
    (hcb : ∀ c svc, e.services c = some svc →
      ∀ bn rb re st d st', svc.read bn rb re st = (some d, st') → d.length = 16) :
    (send_response e cmd s).1 = .noResp ∨
      ∃ r, (send_response e cmd s).1 = .resp r := by
  simp only [send_response]
  by_cases hp : (cmd.take 4 = [6, 0, 255, 255] ∨ cmd.take 4 = [6, 0] ++ e.sc)
  · rw [if_pos hp]
    have h0 : cmd.getD 0 0 = 6 := by
      rcases hp with h | h
      · have := congrArg (fun l => l.getD 0 0) h
        simpa [List.getD_eq_getElem?_getD, List.getElem?_take] using this
      · obtain ⟨a, b, hab⟩ := list_len2 e.sc hsc
        rw [hab] at h
        have := congrArg (fun l => l.getD 0 0) h
        simpa [List.getD_eq_getElem?_getD, List.getElem?_take] using this
    have hL : cmd.length = 6 := by omega
    cases hx : cmd[4]? with
    | none =>
      rw [List.getElem?_eq_none_iff] at hx
      omega
    | some rc =>
      have hpoll : polling e (cmd.drop 2) =
          some (if rc = 1 then e.idm ++ e.pmm ++ e.sc else e.idm ++ e.pmm) := by
        simp only [polling, List.getElem?_drop]
        rw [show 2 + 2 = 4 by rfl, hx]
      rw [hpoll]
      dsimp only
      have hrlen : (if rc = 1 then e.idm ++ e.pmm ++ e.sc else e.idm ++ e.pmm).length ≤ 18 := by
        by_cases hrc : rc = 1 <;> simp [hrc, hidm, hpmm, hsc]
      rw [if_pos (by omega : 2 + (if rc = 1 then e.idm ++ e.pmm ++ e.sc
        else e.idm ++ e.pmm).length ≤ 255)]
      exact afterPolling_safe e cmd s _ hsc h2 hrw hcb
  · rw [if_neg hp]
    exact afterPolling_safe e cmd s none hsc h2 hrw hcb

theorem C6_witness :
    (send_response (logEmu [11]) [16, 6, 0, 0, 0, 0, 0, 0, 0, 0, 1, 11, 0, 1, 128, 3]
      ([] : List LogEntry)).1 = .noResp ∨
    ∃ r, (send_response (logEmu [11]) [16, 6, 0, 0, 0, 0, 0, 0, 0, 0, 1, 11, 0, 1, 128, 3]
      ([] : List LogEntry)).1 = .resp r :=
  C6_dispatcher_no_raise (logEmu [11]) [16, 6, 0, 0, 0, 0, 0, 0, 0, 0, 1, 11, 0, 1, 128, 3] []
    (by decide) (by decide) (by decide) (by decide) (by decide) (by decide)
    (logEmu_read_16 [11])

/-- C6 counterexample: a 13-byte read-without-encryption frame whose length
byte (13) matches its length but whose declared service count (2) exceeds
the bytes remaining in the frame makes the dispatcher raise (IndexError at
`cmd_data[1]`, tt3.py line 308), contradicting the claim's "including for
frames whose declared service-list or block-list counts exceed the bytes
remaining" clause. -/
theorem C6_counterexample :
    (send_response (logEmu [11]) [13, 6, 0, 0, 0, 0, 0, 0, 0, 0, 2, 11, 0]
      ([] : List LogEntry)).1 = DOut.raise := by
  decide
